import Mathlib

/-!
Verification of the `sitemap_crawler.py` crawler (repository `capture3`).

Strings are modelled as lists of characters (`Str`), so that the Python
string operations (find, split, strip, endswith, lower) become structurally
recursive list functions.  The functions of the class `SitemapCrawler` are
embedded one by one, keeping their names; the pieces of the Python standard
library `urllib.parse` that the crawler calls (`urlparse`, `urlunparse`,
`urldefrag`) are modelled from their CPython source (ASCII subset, modern
3.x semantics).  The external collaborators (HTTP transport and HTML
parsing, excluded by the specification) are modelled as an oracle that, for
each URL, either fails with an error message or returns the page title, the
final URL after redirects, and the list of absolute hyperlink targets of
the page (the application of `urljoin` to each `href`, which the Python
code performs through the external library, is folded into the oracle).
-/

abbrev Str := List Char

/-- Lower-casing of one character, as CPython `str.lower` acts on ASCII
(`Char.toLower` in Lean has exactly the basic-latin behaviour). -/
def lowerStr (s : Str) : Str := s.map Char.toLower

/-- Python `s.find(c)` / `s.split(c, 1)`: split a string at the first
occurrence of character `c`, returning the part before and the part after
(the occurrence removed), or `none` when `c` does not occur. -/
def splitFirst (c : Char) : Str → Option (Str × Str)
  | [] => none
  | a :: rest =>
    if a = c then some ([], rest)
    else (splitFirst c rest).map (fun p => (a :: p.1, p.2))

/-- Split at the last occurrence of `c` (Python `s.rfind(c)`): the part
before and the part after the last occurrence. -/
def splitLast (c : Char) (s : Str) : Option (Str × Str) :=
  (splitFirst c s.reverse).map (fun p => (p.2.reverse, p.1.reverse))

/-- Python `s.split(sep)[-1]`: the substring after the last occurrence of
`'/'` (the whole string when there is no `'/'`). -/
def lastSegment (p : Str) : Str := (p.reverse.takeWhile (fun c => c ≠ '/')).reverse

/-- Python `s.endswith(t)` for a one-character `t`. -/
def endsWithChar (c : Char) (s : Str) : Bool := s.getLast? = some c

/-- Python `s.endswith(t)`. -/
def endsWithStr (s suf : Str) : Bool := suf.reverse.isPrefixOf s.reverse

/-- Python `s.rstrip(c)` for `c = '/'`: remove all trailing slashes. -/
def rstripSlash (s : Str) : Str := (s.reverse.dropWhile (fun c => c = '/')).reverse

/-- Python `s.strip(c)` for `c = '/'`: remove leading and trailing slashes. -/
def stripSlash (s : Str) : Str := rstripSlash (s.dropWhile (fun c => c = '/'))

/-- Python `s.split(sep)`: auxiliary accumulator recursion. -/
def splitOnCharGo (sep : Char) : Str → Str → List Str
  | [], acc => [acc.reverse]
  | c :: rest, acc =>
    if c = sep then acc.reverse :: splitOnCharGo sep rest []
    else splitOnCharGo sep rest (c :: acc)

/-- Python `s.split(sep)` for a one-character separator: `n` occurrences of
the separator yield `n + 1` parts, empty parts included
(`"a//b".split("/") = ["a", "", "b"]`, `"".split("/") = [""]`). -/
def splitOnChar (sep : Char) (s : Str) : List Str := splitOnCharGo sep s []

/-- Lookup in an association list modelling a Python `dict` that is updated
by consing the new binding in front (the first binding wins). -/
def lookupA {α : Type} (k : Str) (l : List (Str × α)) : Option α :=
  match l with
  | [] => none
  | (k2, v) :: rest => if k2 = k then some v else lookupA k rest

/-- Overwrite-update of the association-list dictionary. -/
def updateA {α : Type} (k : Str) (v : α) (l : List (Str × α)) : List (Str × α) :=
  (k, v) :: l

/-- ASCII letter test, modelling Python `c.isascii() and c.isalpha()`. -/
def pyIsAsciiAlpha (c : Char) : Bool :=
  (65 ≤ c.toNat && c.toNat ≤ 90) || (97 ≤ c.toNat && c.toNat ≤ 122)

/-- ASCII digit test. -/
def pyIsAsciiDigit (c : Char) : Bool := 48 ≤ c.toNat && c.toNat ≤ 57

/-- The characters allowed in a URL scheme by `urllib.parse`
(`scheme_chars = letters + digits + '+-.'`). -/
def isSchemeChar (c : Char) : Bool :=
  pyIsAsciiAlpha c || pyIsAsciiDigit c || c = '+' || c = '-' || c = '.'

/-- Result of `urllib.parse.urlparse`: the six components
(scheme, netloc, path, params, query, fragment). -/
structure UrlParts where
  scheme : Str
  netloc : Str
  path : Str
  params : Str
  query : Str
  fragment : Str
deriving DecidableEq

/-- Modelled from CPython `urlsplit`: the scheme is split off at the first
colon when the part before it is nonempty, starts with an ASCII letter and
consists of scheme characters only; it is lower-cased. -/
def schemeSplit (u : Str) : Str × Str :=
  match splitFirst ':' u with
  | none => ([], u)
  | some (pre, post) =>
    match pre with
    | [] => ([], u)
    | c0 :: _ =>
      if pyIsAsciiAlpha c0 && pre.all isSchemeChar then (lowerStr pre, post)
      else ([], u)

/-- A character that does not terminate the netloc (`_splitnetloc` scans
until the next `/`, `?` or `#`). -/
def netPred (c : Char) : Bool := c ≠ '/' && c ≠ '?' && c ≠ '#'

/-- Modelled from CPython `_splitnetloc`: when the remainder starts with
`//`, the netloc extends to the next `/`, `?` or `#`. -/
def netlocSplit (u : Str) : Str × Str :=
  match u with
  | '/' :: '/' :: rest => (rest.takeWhile netPred, rest.dropWhile netPred)
  | _ => ([], u)

/-- Modelled from CPython `_splitparams`: parameters are split off at the
first `;` of the last path segment, if any. -/
def paramsSplit (p : Str) : Str × Str :=
  match splitLast '/' p with
  | some (before, lastSeg) =>
    match splitFirst ';' lastSeg with
    | none => (p, [])
    | some (x, y) => (before ++ '/' :: x, y)
  | none =>
    match splitFirst ';' p with
    | none => (p, [])
    | some (x, y) => (x, y)

/-- Fragment removal inside `urlsplit`: split at the first `#`. -/
def fragSplit (v : Str) : Str × Str :=
  match splitFirst '#' v with
  | none => (v, [])
  | some (a, b) => (a, b)

/-- Query removal inside `urlsplit`: split at the first `?`. -/
def querySplit (v : Str) : Str × Str :=
  match splitFirst '?' v with
  | none => (v, [])
  | some (a, b) => (a, b)

/-- Modelled from CPython `urlparse` (ASCII subset): scheme, then `//`
netloc, then fragment at the first `#`, then query at the first `?`, then
parameters out of the last path segment. -/
def urlparse (u : Str) : UrlParts :=
  let s := schemeSplit u
  let n := netlocSplit s.2
  let f := fragSplit n.2
  let q := querySplit f.1
  let pp := paramsSplit q.1
  ⟨s.1, n.1, pp.1, pp.2, q.2, f.2⟩

/-- Modelled from CPython `urlunsplit`. -/
def urlunsplit (scheme netloc path query fragment : Str) : Str :=
  let u1 :=
    if netloc ≠ [] ∨ path.take 2 = ['/', '/'] then
      '/' :: '/' :: netloc ++
        (if path ≠ [] ∧ path.head? ≠ some '/' then '/' :: path else path)
    else path
  let u2 := if scheme ≠ [] then scheme ++ ':' :: u1 else u1
  let u3 := if query ≠ [] then u2 ++ '?' :: query else u2
  if fragment ≠ [] then u3 ++ '#' :: fragment else u3

/-- Modelled from CPython `urlunparse`. -/
def urlunparse (p : UrlParts) : Str :=
  urlunsplit p.scheme p.netloc
    (if p.params ≠ [] then p.path ++ ';' :: p.params else p.path)
    p.query p.fragment

/-- Modelled from CPython `urldefrag`: when the URL has no `#` it is
returned unchanged, otherwise it is re-assembled without its fragment. -/
def urldefrag (u : Str) : Str :=
  if '#' ∈ u then urlunparse { urlparse u with fragment := [] } else u

/-- The fixed denylist of extensions of `SitemapCrawler.__init__`
(source lines 40-52). -/
def excluded_extensions : List Str :=
  [".jpg".toList, ".jpeg".toList, ".png".toList, ".gif".toList, ".bmp".toList,
   ".svg".toList, ".webp".toList, ".ico".toList,
   ".pdf".toList, ".doc".toList, ".docx".toList, ".xls".toList, ".xlsx".toList,
   ".ppt".toList, ".pptx".toList, ".txt".toList, ".csv".toList, ".zip".toList,
   ".rar".toList, ".7z".toList,
   ".exe".toList, ".dmg".toList, ".pkg".toList, ".deb".toList, ".rpm".toList,
   ".mp4".toList, ".avi".toList, ".mov".toList, ".mp3".toList, ".wav".toList,
   ".xml".toList, ".json".toList, ".css".toList, ".js".toList]

/-- The fixed allowlist of endings of `SitemapCrawler.__init__`
(source line 55). -/
def allowed_endings : List Str :=
  ["/".toList, ".html".toList, ".htm".toList, ".php".toList]

/-- The seed-derived fields of a `SitemapCrawler` instance.  The two
filter constant sets are global definitions above since `__init__` always
assigns the same literals. -/
structure SitemapCrawler where
  base_url : Str
  base_domain : Str
  base_path : Str
deriving DecidableEq

/-- Embedding of `SitemapCrawler.__init__` (source lines 20-63): the seed
path gets a trailing slash appended when it does not end in a slash and its
last segment has no dot (an empty path becomes `/`); `base_domain` is the
netloc of the raw input; `base_path` is the path of the re-parsed
normalized base URL with trailing slashes removed. -/
def SitemapCrawler.init (input_url : Str) : SitemapCrawler :=
  let parsed := urlparse input_url
  let path0 := parsed.path
  let path :=
    if ¬ endsWithChar '/' path0 ∧ '.' ∉ lastSegment path0 then
      (if path0 ≠ [] then path0 ++ ['/'] else ['/'])
    else path0
  let burl := parsed.scheme ++ ':' :: '/' :: '/' :: parsed.netloc ++ path
  { base_url := burl
    base_domain := parsed.netloc
    base_path := rstripSlash (urlparse burl).path }

/-- Embedding of `SitemapCrawler.normalize_url` (source lines 65-94): an
empty path becomes `/`; a path not ending in `/` whose last segment has no
dot gets a `/` appended; the URL is re-assembled from scheme, netloc, path
and (if present) query. -/
def normalize_url (url : Str) : Str :=
  let parsed := urlparse url
  let path :=
    if parsed.path = [] then ['/']
    else if ¬ endsWithChar '/' parsed.path ∧ '.' ∉ lastSegment parsed.path then
      parsed.path ++ ['/']
    else parsed.path
  let normalized := parsed.scheme ++ ':' :: '/' :: '/' :: parsed.netloc ++ path
  if parsed.query ≠ [] then normalized ++ '?' :: parsed.query else normalized

/-- Embedding of `SitemapCrawler.is_valid_url` (source lines 96-137):
defragment; reject the empty URL, a URL whose netloc is not the seed's
domain, a URL containing `?`, and a URL whose lower-cased path ends with a
denylisted extension; accept a URL whose last path segment has no dot;
otherwise accept exactly when the lower-cased path ends with an allowlisted
ending. -/
def is_valid_url (c : SitemapCrawler) (url0 : Str) : Bool :=
  let url := urldefrag url0
  if url = [] then false
  else
    let parsed := urlparse url
    if parsed.netloc ≠ c.base_domain then false
    else if '?' ∈ url then false
    else
      let path_lower := lowerStr parsed.path
      if excluded_extensions.any (fun e => endsWithStr path_lower e) then false
      else if '.' ∉ lastSegment parsed.path then true
      else allowed_endings.any (fun e => endsWithStr path_lower e)

/-- Embedding of `SitemapCrawler.calculate_depth` (source lines 216-246):
strip trailing slashes off the URL path; depth 0 when it equals
`base_path`; otherwise drop the `base_path` prefix when `base_path` is
nonempty and `base_path + '/'` is a prefix, else keep the whole path; strip
slashes at both ends; empty relative path has depth 0, otherwise the depth
is the number of parts of the split at `/` (empty parts included, exactly
as Python `len(relative.split('/'))`). -/
def calculate_depth (c : SitemapCrawler) (url : Str) : Int :=
  let url_path := rstripSlash (urlparse url).path
  if url_path = c.base_path then 0
  else
    let relative_path :=
      if c.base_path ≠ [] ∧ (c.base_path ++ ['/']).isPrefixOf url_path then
        stripSlash (url_path.drop c.base_path.length)
      else if c.base_path = [] ∨ c.base_path = ['/'] then
        stripSlash url_path
      else
        stripSlash url_path
    if relative_path = [] then 0
    else ((splitOnChar '/' relative_path).length : Int)

/-- Embedding of `SitemapCrawler.extract_links` (source lines 187-214).
The page is represented by the list of absolute href targets (the external
`BeautifulSoup` find and the external `urljoin` resolution are folded into
the oracle); each target is defragmented, filtered by `is_valid_url`,
normalized and collected into a set.  Python iterates over a `set` whose
order is unspecified; the model keeps first-insertion order, which realizes
one possible iteration order. -/
def extract_links (c : SitemapCrawler) (hrefs : List Str) : List Str :=
  hrefs.foldl
    (fun acc h =>
      let absolute := urldefrag h
      if is_valid_url c absolute then
        let n := normalize_url absolute
        if n ∈ acc then acc else acc ++ [n]
      else acc)
    []

/-- Result of one call of `get_page_content` (source lines 139-185): either
an error message (timeout, connection error, bad status, bad content type,
other exception), or the page's links (see `extract_links`), its title and
the final URL after redirects. -/
inductive FetchResult where
  | failure (error : Str)
  | success (hrefs : List Str) (title : Str) (finalUrl : Str)

/-- The external network and parser collaborators, as a pure oracle from
URL to fetch outcome. -/
def Oracle := Str → FetchResult

/-- The mutable state of a `SitemapCrawler` instance during `crawl`, plus
an instrumentation log `fetchLog` recording every URL passed to
`get_page_content`, in order. -/
structure CrawlState where
  visited_urls : List Str
  url_tree : List (Str × List (Str × Str × Int))
  url_titles : List (Str × Str)
  url_depths : List (Str × Int)
  failed_urls : List (Str × Str)
  fetchLog : List Str
deriving DecidableEq

/-- The state of a freshly constructed crawler: all sets empty. -/
def emptyState : CrawlState := ⟨[], [], [], [], [], []⟩

/-- The fallback failure reason of source line 272 (`"不明なエラー"`). -/
def unknownError : Str := "不明なエラー".toList

/-- The sentinel parent key of source line 302 (`'root'`). -/
def rootKey : Str := "root".toList

/-- Append a child record to the `url_tree` defaultdict entry of `parent`
(source lines 294-306). -/
def appendTree (parent : Str) (rec : Str × Str × Int)
    (t : List (Str × List (Str × Str × Int))) : List (Str × List (Str × Str × Int)) :=
  match t with
  | [] => [(parent, [rec])]
  | (k, v) :: rest =>
    if k = parent then (k, v ++ [rec]) :: rest else (k, v) :: appendTree parent rec rest

/-- One body of `SitemapCrawler.crawl` up to (and excluding) the recursion
into the extracted links (source lines 248-309): normalize, return on a
visited URL, fetch, record a failure, or record the visit, handle a
redirected final URL, store title and depth, record the parent edge, and
extract the page's links.  Returns the new state and, on a successful
fetch, the normalized URL together with the extracted links. -/
def crawlStep (O : Oracle) (c : SitemapCrawler) (st : CrawlState)
    (url0 : Str) (parent : Option Str) : CrawlState × Option (Str × List Str) :=
  let url := normalize_url url0
  if url ∈ st.visited_urls then (st, none)
  else
    let depth := calculate_depth c url
    let st0 := { st with fetchLog := st.fetchLog ++ [url] }
    match O url with
    | .failure e =>
      let reason := if e = [] then unknownError else e
      ({ st0 with failed_urls := updateA url reason st0.failed_urls }, none)
    | .success hrefs title finalUrl =>
      let st1 := { st0 with visited_urls := url :: st0.visited_urls }
      let st2 :=
        if finalUrl ≠ [] ∧ finalUrl ≠ url then
          let fn := normalize_url finalUrl
          if fn ≠ url ∧ fn ∉ st1.visited_urls then
            { st1 with visited_urls := fn :: st1.visited_urls,
                       url_titles := updateA fn title st1.url_titles,
                       url_depths := updateA fn (calculate_depth c fn) st1.url_depths }
          else st1
        else st1
      let st3 := { st2 with url_titles := updateA url title st2.url_titles,
                            url_depths := updateA url depth st2.url_depths }
      let parentKey := match parent with | some p => p | none => rootKey
      let st4 := { st3 with url_tree := appendTree parentKey (url, title, depth) st3.url_tree }
      (st4, some (url, extract_links c hrefs))

/-- Embedding of `SitemapCrawler.crawl` (source lines 248-315), with a fuel
bound on the recursion depth (the Python recursion is unbounded; every
theorem below holds for every fuel value or is evaluated at a sufficient
one).  After a successful step, each extracted link that is not yet visited
is crawled recursively with the current URL as parent (the inter-request
sleep has no observable effect in the model). -/
def crawl (O : Oracle) (c : SitemapCrawler) :
    Nat → CrawlState → Str → Option Str → CrawlState
  | 0, st, _, _ => st
  | fuel + 1, st, url0, parent =>
    match crawlStep O c st url0 parent with
    | (st1, none) => st1
    | (st1, some (url, links)) =>
      links.foldl
        (fun s link => if link ∈ s.visited_urls then s else crawl O c fuel s link (some url))
        st1

/-- The body of the link loop of `crawl` (source lines 312-315), named so
that theorems can speak about the traversal continuing after a failure. -/
def crawlFoldFn (O : Oracle) (c : SitemapCrawler) (fuel : Nat) (parentUrl : Str)
    (s : CrawlState) (link : Str) : CrawlState :=
  if link ∈ s.visited_urls then s else crawl O c fuel s link (some parentUrl)

/-- Unfolding of `crawl` on a successful step in terms of `crawlFoldFn`. -/
theorem crawl_succ (O : Oracle) (c : SitemapCrawler) (fuel : Nat) (st : CrawlState)
    (url0 : Str) (parent : Option Str) :
    crawl O c (fuel + 1) st url0 parent =
      match crawlStep O c st url0 parent with
      | (st1, none) => st1
      | (st1, some (url, links)) => links.foldl (crawlFoldFn O c fuel url) st1 := rfl

/-! ## Shared concrete instances used by evaluation theorems -/

/-- The crawler seeded at `http://h/`. -/
def crawlerH : SitemapCrawler := SitemapCrawler.init ("http://h/".toList)

/-- Oracle for the claim C1 counterexample: the seed page links to `f` (which
always fails) and to `a`, whose page links to `f` again. -/
def oracleC1 : Oracle := fun u =>
  if u = "http://h/".toList then
    .success ["http://h/f/".toList, "http://h/a/".toList] "T".toList "http://h/".toList
  else if u = "http://h/a/".toList then
    .success ["http://h/f/".toList] "TA".toList "http://h/a/".toList
  else .failure "err".toList

/-- Oracle for the claim C2 counterexample: the seed links to `a` and `b`;
fetching `a` succeeds but redirects to `fb`, and the page of `a` links to
`fa`; symmetrically `b` redirects to `fa` and links to `fb`; `fa` and `fb`
themselves always fail.  In either iteration order of the seed's link set
one of `fa`, `fb` first fails and is later marked visited as a redirect
target. -/
def oracleC2 : Oracle := fun u =>
  if u = "http://h/".toList then
    .success ["http://h/a/".toList, "http://h/b/".toList] "T".toList "http://h/".toList
  else if u = "http://h/a/".toList then
    .success ["http://h/fa/".toList] "TA".toList "http://h/fb/".toList
  else if u = "http://h/b/".toList then
    .success ["http://h/fb/".toList] "TB".toList "http://h/fa/".toList
  else .failure "err".toList

/-! ## Claim C1 -/

/-- Claim C1, counterexample.  The claim states that `crawl(u, parent)`
returns immediately, performing no fetch, whenever `u` is already in the
Failed set.  In the run of `oracleC1` from the seed, `http://h/f/` fails at
its first crawl (second fetch-log entry) and is nevertheless fetched a
second time when rediscovered through page `a` (fourth entry), because the
source (line 260) checks only `visited_urls`, never `failed_urls`. -/
theorem claim1_counterexample :
    (crawl oracleC1 crawlerH 4 emptyState "http://h/".toList none).fetchLog =
      ["http://h/".toList, "http://h/f/".toList, "http://h/a/".toList,
       "http://h/f/".toList] ∧
    (lookupA "http://h/f/".toList
      (crawl oracleC1 crawlerH 4 emptyState "http://h/".toList none).failed_urls).isSome = true := by
  constructor
  · rfl
  · rfl

/-- Claim C1, amended: a call `crawl(u, parent)` returns immediately,
performing no fetch and no state change, whenever the normalization of `u`
is already in the Visited set; membership in the Failed set alone does not
prevent a further fetch. -/
theorem claim1_visited_noop (O : Oracle) (c : SitemapCrawler) (fuel : Nat)
    (st : CrawlState) (u : Str) (p : Option Str)
    (h : normalize_url u ∈ st.visited_urls) :
    crawl O c fuel st u p = st := by
  cases fuel with
  | zero => rfl
  | succ n => simp [crawl, crawlStep, h]

/-- Witness for `claim1_visited_noop` at a concrete visited state. -/
theorem claim1_witness :
    normalize_url "http://h/".toList ∈
      (CrawlState.mk ["http://h/".toList] [] [] [] [] []).visited_urls ∧
    crawl oracleC1 crawlerH 3 (CrawlState.mk ["http://h/".toList] [] [] [] [] [])
      "http://h/".toList none = CrawlState.mk ["http://h/".toList] [] [] [] [] [] :=
  ⟨by decide, claim1_visited_noop oracleC1 crawlerH 3 _ _ none (by decide)⟩

/-! ## Claim C2 -/

/-- Claim C2, counterexample.  In the run of `oracleC2` from the seed,
`http://h/fa/` first fails (crawled from page `a`) and is afterwards added
to the Visited set as the normalized redirect target of the successful
fetch of `b` (source lines 279-287 check `visited_urls` but not
`failed_urls`), so one canonical URL ends the run in both sets. -/
theorem claim2_counterexample :
    "http://h/fa/".toList ∈
      (crawl oracleC2 crawlerH 5 emptyState "http://h/".toList none).visited_urls ∧
    (lookupA "http://h/fa/".toList
      (crawl oracleC2 crawlerH 5 emptyState "http://h/".toList none).failed_urls).isSome = true := by
  constructor
  · decide
  · rfl

/-- Growth and stability properties relating a crawl-state to a later one:
the Visited set only grows, the set of Failed keys only grows, and the
Failed record of an already-visited URL never changes. -/
def StatePreserve (st st2 : CrawlState) : Prop :=
  (∀ v, v ∈ st.visited_urls → v ∈ st2.visited_urls) ∧
  (∀ k, (lookupA k st.failed_urls).isSome = true →
        (lookupA k st2.failed_urls).isSome = true) ∧
  (∀ v, v ∈ st.visited_urls → lookupA v st2.failed_urls = lookupA v st.failed_urls)

theorem statePreserve_refl (st : CrawlState) : StatePreserve st st :=
  ⟨fun _ h => h, fun _ h => h, fun _ _ => rfl⟩

theorem statePreserve_trans {s1 s2 s3 : CrawlState}
    (h12 : StatePreserve s1 s2) (h23 : StatePreserve s2 s3) : StatePreserve s1 s3 := by
  obtain ⟨a12, b12, c12⟩ := h12
  obtain ⟨a23, b23, c23⟩ := h23
  refine ⟨fun v hv => a23 v (a12 v hv), fun k hk => b23 k (b12 k hk), fun v hv => ?_⟩
  rw [c23 v (a12 v hv), c12 v hv]

theorem lookupA_update_ne {α : Type} (k u : Str) (x : α) (l : List (Str × α))
    (h : u ≠ k) : lookupA k (updateA u x l) = lookupA k l := by
  simp [lookupA, updateA, h]

theorem statePreserve_crawlStep (O : Oracle) (c : SitemapCrawler) (st : CrawlState)
    (u : Str) (p : Option Str) : StatePreserve st (crawlStep O c st u p).1 := by
  unfold crawlStep
  by_cases hv : normalize_url u ∈ st.visited_urls
  · simp only [hv, if_true]
    exact statePreserve_refl st
  · simp only [hv, if_false]
    cases hO : O (normalize_url u) with
    | failure e =>
      dsimp only
      refine ⟨fun v hv2 => hv2, fun k hk => ?_, fun v hv2 => ?_⟩
      · simp only [lookupA, updateA]
        split
        · simp
        · exact hk
      · have hne : normalize_url u ≠ v := fun he => hv (he ▸ hv2)
        simp only [lookupA, updateA]
        rw [if_neg hne]
    | success hrefs title finalUrl =>
      dsimp only
      refine ⟨fun v hv2 => ?_, fun k hk => ?_, fun v hv2 => ?_⟩
      · -- visited only grows through the two conses
        split
        · split
          · simp [List.mem_cons, hv2]
          · simp [List.mem_cons, hv2]
        · simp [List.mem_cons, hv2]
      · -- failed_urls is untouched on the success path
        split
        · split
          · exact hk
          · exact hk
        · exact hk
      · split
        · split
          · rfl
          · rfl
        · rfl

theorem statePreserve_foldl (O : Oracle) (c : SitemapCrawler) (fuel : Nat) (pu : Str)
    (hstep : ∀ st u p, StatePreserve st (crawl O c fuel st u p)) :
    ∀ (ls : List Str) (st : CrawlState),
      StatePreserve st (ls.foldl (crawlFoldFn O c fuel pu) st) := by
  intro ls
  induction ls with
  | nil => intro st; exact statePreserve_refl st
  | cons l rest ih =>
    intro st
    have h1 : StatePreserve st (crawlFoldFn O c fuel pu st l) := by
      unfold crawlFoldFn
      split
      · exact statePreserve_refl st
      · exact hstep st l (some pu)
    exact statePreserve_trans h1 (ih _)

/-- Claim C2, amended: the Visited and Failed sets are not always disjoint
(see `claim2_counterexample`); what every crawl call does guarantee is that
the Visited set and the set of Failed keys never lose an element, and that
a URL already in the Visited set never has a Failed entry recorded or
changed afterwards (so an overlap can only arise in the direction
Failed-then-Visited, through redirect handling). -/
theorem claim2_monotone_stable (O : Oracle) (c : SitemapCrawler) :
    ∀ (fuel : Nat) (st : CrawlState) (u : Str) (p : Option Str),
      StatePreserve st (crawl O c fuel st u p) := by
  intro fuel
  induction fuel with
  | zero => intro st u p; exact statePreserve_refl st
  | succ n ih =>
    intro st u p
    rw [crawl_succ]
    have hstep := statePreserve_crawlStep O c st u p
    cases hcs : crawlStep O c st u p with
    | mk st1 rest =>
      rw [hcs] at hstep
      cases rest with
      | none => exact hstep
      | some ul =>
        cases ul with
        | mk url links =>
          exact statePreserve_trans hstep (statePreserve_foldl O c n url ih links st1)

/-- Witness for `claim2_monotone_stable`: in the `oracleC2` run the seed
URL, visited by the outer call, stays visited. -/
theorem claim2_witness :
    "http://h/".toList ∈
      (crawl oracleC2 crawlerH 3
        (CrawlState.mk ["http://h/".toList] [] [] [] [] [])
        "http://h/a/".toList none).visited_urls :=
  (claim2_monotone_stable oracleC2 crawlerH 3
    (CrawlState.mk ["http://h/".toList] [] [] [] [] [])
    "http://h/a/".toList none).1 "http://h/".toList (by decide)

/-! ## Claim C8 -/

/-- Claim C8: a fetch failure is non-fatal.  When the fetch of a
not-yet-visited URL fails with reason `e`, the crawl call returns a state
that differs from the input state only by the new Failed record (with the
fetched URL as key and `e`, or the fallback reason when `e` is empty, as
value) and the fetch-log entry: no link is extracted, nothing is recursed
into, no other state component changes.  Moreover the link loop of a parent
page simply continues with the remaining links from that state, so no
failure aborts the surrounding traversal. -/
theorem claim8_failure_nonfatal (O : Oracle) (c : SitemapCrawler) (fuel : Nat)
    (st : CrawlState) (u : Str) (p : Option Str) (e : Str)
    (h1 : normalize_url u ∉ st.visited_urls)
    (h2 : O (normalize_url u) = .failure e) :
    crawl O c (fuel + 1) st u p =
      { st with
          failed_urls :=
            updateA (normalize_url u) (if e = [] then unknownError else e) st.failed_urls,
          fetchLog := st.fetchLog ++ [normalize_url u] } ∧
    (∀ (pu : Str) (rest : List Str), u ∉ st.visited_urls →
      List.foldl (crawlFoldFn O c (fuel + 1) pu) st (u :: rest) =
        List.foldl (crawlFoldFn O c (fuel + 1) pu)
          { st with
              failed_urls :=
                updateA (normalize_url u) (if e = [] then unknownError else e) st.failed_urls,
              fetchLog := st.fetchLog ++ [normalize_url u] } rest) := by
  have key : ∀ p2 : Option Str, crawl O c (fuel + 1) st u p2 =
      { st with
          failed_urls :=
            updateA (normalize_url u) (if e = [] then unknownError else e) st.failed_urls,
          fetchLog := st.fetchLog ++ [normalize_url u] } := by
    intro p2
    have hstep : crawlStep O c st u p2 =
        ({ st with
            failed_urls :=
              updateA (normalize_url u) (if e = [] then unknownError else e) st.failed_urls,
            fetchLog := st.fetchLog ++ [normalize_url u] }, none) := by
      simp [crawlStep, h1, h2]
    rw [crawl_succ, hstep]
  refine ⟨key p, fun pu rest hraw => ?_⟩
  rw [List.foldl_cons]
  have hfn : crawlFoldFn O c (fuel + 1) pu st u =
      { st with
          failed_urls :=
            updateA (normalize_url u) (if e = [] then unknownError else e) st.failed_urls,
          fetchLog := st.fetchLog ++ [normalize_url u] } := by
    unfold crawlFoldFn
    rw [if_neg hraw]
    exact key (some pu)
  rw [hfn]

/-- Witness for `claim8_failure_nonfatal`: the timeout scenario.  Fetching
`http://h/broken/` fails with reason `タイムアウト`; the crawl records
exactly that Failed entry and the traversal continues. -/
theorem claim8_witness :
    crawl (fun _ => .failure "タイムアウト".toList) crawlerH 3 emptyState
        "http://h/broken/".toList none =
      { emptyState with
          failed_urls := updateA "http://h/broken/".toList "タイムアウト".toList [],
          fetchLog := ["http://h/broken/".toList] } :=
  (claim8_failure_nonfatal (fun _ => .failure "タイムアウト".toList) crawlerH 2 emptyState
    "http://h/broken/".toList none "タイムアウト".toList (by decide) rfl).1.trans (by decide)

/-! ## Claim C6 -/

/-- Oracle for the claim C6 counterexample: fetching the (non-canonical)
URL `://foo/` succeeds and reports the same string back as its final URL. -/
def oracleC6 : Oracle := fun u =>
  if u = "://foo/".toList then .success [] "T".toList "://foo/".toList
  else .failure "x".toList

/-- The state after the single crawl step of the C6 counterexample. -/
def claim6CexState : CrawlState :=
  (crawlStep oracleC6 crawlerH emptyState "foo".toList none).1

/-- Claim C6, counterexample.  The crawled URL is `u = normalize("foo") =
"://foo/"` (normalization is not idempotent here); the successful fetch
reports final URL `f = "://foo/"`, whose normalization `"://://foo/"`
differs from `u` and is not visited, so the claim requires both `u` and
`normalize(f)` to be marked Visited.  The code (source line 279) first
compares `f` with `u` as raw strings and skips the whole redirect block
when they are equal, so `normalize(f)` is not marked. -/
theorem claim6_counterexample :
    oracleC6 (normalize_url "foo".toList) = .success [] "T".toList "://foo/".toList ∧
    normalize_url "://foo/".toList ≠ normalize_url "foo".toList ∧
    normalize_url "://foo/".toList ∉ claim6CexState.visited_urls ∧
    normalize_url "foo".toList ∈ claim6CexState.visited_urls :=
  ⟨rfl, by decide, by decide, by decide⟩

/-- Claim C6, amended: whenever a successful fetch of a not-yet-visited URL
`u` (with `u` a normalization fixed point, as every URL of the form
`scheme://host...` is) reports a nonempty final URL `f` whose normalization
differs from `u` and is not yet Visited, the crawl step marks both `u` and
`normalize(f)` Visited, performs exactly the one fetch of `u` (none of
`f`), records the single fetched title for both URLs, and records for each
its own independently computed depth. -/
theorem claim6_redirect_shared (O : Oracle) (c : SitemapCrawler) (st : CrawlState)
    (u0 : Str) (p : Option Str) (hrefs : List Str) (title f : Str)
    (hvis : normalize_url u0 ∉ st.visited_urls)
    (hfetch : O (normalize_url u0) = .success hrefs title f)
    (hne : f ≠ [])
    (hidem : normalize_url (normalize_url u0) = normalize_url u0)
    (hdiff : normalize_url f ≠ normalize_url u0)
    (hnv : normalize_url f ∉ st.visited_urls) :
    normalize_url u0 ∈ (crawlStep O c st u0 p).1.visited_urls ∧
    normalize_url f ∈ (crawlStep O c st u0 p).1.visited_urls ∧
    lookupA (normalize_url f) (crawlStep O c st u0 p).1.url_titles = some title ∧
    lookupA (normalize_url u0) (crawlStep O c st u0 p).1.url_titles = some title ∧
    lookupA (normalize_url u0) (crawlStep O c st u0 p).1.url_depths =
      some (calculate_depth c (normalize_url u0)) ∧
    lookupA (normalize_url f) (crawlStep O c st u0 p).1.url_depths =
      some (calculate_depth c (normalize_url f)) ∧
    (crawlStep O c st u0 p).1.fetchLog = st.fetchLog ++ [normalize_url u0] := by
  have hfu : f ≠ normalize_url u0 := by
    intro he
    exact hdiff (by rw [he, hidem])
  have hcons : normalize_url f ∉ normalize_url u0 :: st.visited_urls := by
    intro hmem
    rcases List.mem_cons.mp hmem with h | h
    · exact hdiff h
    · exact hnv h
  unfold crawlStep
  simp only [hvis, if_false, hfetch]
  rw [if_pos ⟨hne, hfu⟩, if_pos ⟨hdiff, by simpa using hcons⟩]
  have hde : normalize_url u0 ≠ normalize_url f := Ne.symm hdiff
  refine ⟨?_, ?_, ?_, ?_, ?_, ?_, ?_⟩
  · simp
  · simp
  · simp [lookupA, updateA, hde]
  · simp [lookupA, updateA]
  · simp [lookupA, updateA]
  · simp [lookupA, updateA, hde]
  · rfl

/-- Witness for `claim6_redirect_shared`: the scenario where
`http://h/old/` redirects to `http://h/new/`; both end Visited with the
shared title and their own depths. -/
theorem claim6_witness :
    normalize_url "http://h/old/".toList ∈
      (crawlStep (fun _ => .success [] "T6".toList "http://h/new/".toList) crawlerH
        emptyState "http://h/old/".toList none).1.visited_urls ∧
    normalize_url "http://h/new/".toList ∈
      (crawlStep (fun _ => .success [] "T6".toList "http://h/new/".toList) crawlerH
        emptyState "http://h/old/".toList none).1.visited_urls ∧
    lookupA (normalize_url "http://h/new/".toList)
      (crawlStep (fun _ => .success [] "T6".toList "http://h/new/".toList) crawlerH
        emptyState "http://h/old/".toList none).1.url_titles = some "T6".toList := by
  have h := claim6_redirect_shared
    (fun _ => .success [] "T6".toList "http://h/new/".toList) crawlerH
    emptyState "http://h/old/".toList none [] "T6".toList "http://h/new/".toList
    (by decide) rfl (by decide) (by decide) (by decide) (by decide)
  exact ⟨h.1, h.2.1, h.2.2.1⟩

/-! ## Character lemmas about ASCII lower-casing -/

theorem char_toNat_ofNat (n : Nat) (h : n < 0xd800) : (Char.ofNat n).toNat = n := by
  rw [Char.ofNat, dif_pos (Or.inl h : n.isValidChar)]
  simp [Char.ofNatAux, Char.toNat, UInt32.ofNat', UInt32.toNat]

theorem char_toLower_toNat (c : Char) (h : c.toNat ≥ 65 ∧ c.toNat ≤ 90) :
    c.toLower.toNat = c.toNat + 32 := by
  unfold Char.toLower
  rw [if_pos h]
  exact char_toNat_ofNat _ (by omega)

theorem char_toLower_eq_self (c : Char) (h : ¬ (c.toNat ≥ 65 ∧ c.toNat ≤ 90)) :
    c.toLower = c := by
  unfold Char.toLower
  rw [if_neg h]

theorem char_toLower_toLower (c : Char) : c.toLower.toLower = c.toLower := by
  by_cases h : c.toNat ≥ 65 ∧ c.toNat ≤ 90
  · have hv := char_toLower_toNat c h
    exact char_toLower_eq_self _ (by omega)
  · rw [char_toLower_eq_self c h, char_toLower_eq_self c h]

/-- A character whose code is below 65 (all URL delimiters: `/`, `.`, `:`,
`?`, `#`, `;`) is only ever the lower-casing of itself. -/
theorem char_toLower_fix (c d : Char) (hd : d.toNat < 65) (h : c.toLower = d) : c = d := by
  by_cases hu : c.toNat ≥ 65 ∧ c.toNat ≤ 90
  · exfalso
    have h1 := char_toLower_toNat c hu
    rw [h] at h1
    omega
  · rw [char_toLower_eq_self c hu] at h
    exact h

/-! ## List lemmas about last segments and suffixes -/

theorem mem_of_mem_lowerStr (c : Char) (l : Str) (hc : c.toNat < 65)
    (h : c ∈ lowerStr l) : c ∈ l := by
  unfold lowerStr at h
  rcases List.mem_map.mp h with ⟨a, ha, hlow⟩
  rwa [← char_toLower_fix a c hc hlow]

theorem takeWhile_eq_of_forall {α : Type} (p q : α → Bool) (l : List α)
    (h : ∀ x ∈ l, p x = q x) : l.takeWhile p = l.takeWhile q := by
  induction l with
  | nil => rfl
  | cons a t ih =>
    simp only [List.takeWhile_cons]
    rw [h a (List.mem_cons_self a t)]
    cases hq : q a
    · rfl
    · rw [ih fun x hx => h x (List.mem_cons_of_mem a hx)]

theorem lastSegment_lowerStr (p : Str) : lastSegment (lowerStr p) = lowerStr (lastSegment p) := by
  unfold lastSegment lowerStr
  rw [← List.map_reverse, List.takeWhile_map, ← List.map_reverse]
  congr 1
  congr 1
  apply takeWhile_eq_of_forall
  intro x _
  simp only [Function.comp_apply, ne_eq, decide_not]
  congr 1
  simp only [decide_eq_decide]
  constructor
  · intro hc
    exact char_toLower_fix x '/' (by decide) hc
  · intro hc
    rw [hc]
    exact char_toLower_eq_self '/' (by decide)

/-- If the lower-cased path ends with a suffix that contains a dot and no
slash, then the last segment of the path contains a dot. -/
theorem dot_mem_lastSegment_of_suffix (p e : Str) (hd : '.' ∈ e) (hs : '/' ∉ e)
    (h : endsWithStr (lowerStr p) e = true) : '.' ∈ lastSegment p := by
  unfold endsWithStr at h
  rcases (List.isPrefixOf_iff_prefix.mp h : e.reverse <+: (lowerStr p).reverse) with ⟨t, ht⟩
  have hall : ∀ a ∈ e.reverse, (decide (a ≠ '/')) = true := by
    intro a ha
    simp only [ne_eq, decide_eq_true_eq]
    intro hav
    exact hs (by simpa using (hav ▸ List.mem_reverse.mp ha))
  have hdot_low : '.' ∈ lastSegment (lowerStr p) := by
    unfold lastSegment
    rw [List.mem_reverse, ← ht, List.takeWhile_append_of_pos hall]
    exact List.mem_append_left _ (List.mem_reverse.mpr hd)
  rw [lastSegment_lowerStr] at hdot_low
  exact mem_of_mem_lowerStr _ _ (by decide) hdot_low

/-- A path whose last segment has no dot cannot end with any of the
denylisted extensions (each contains a dot and no slash). -/
theorem excluded_any_false_of_no_dot (p : Str) (h : '.' ∉ lastSegment p) :
    excluded_extensions.any (fun e => endsWithStr (lowerStr p) e) = false := by
  rw [List.any_eq_false]
  intro e he
  simp only [Bool.not_eq_true]
  cases hend : endsWithStr (lowerStr p) e with
  | false => rfl
  | true =>
    exfalso
    have hall2 : ∀ x ∈ excluded_extensions, '.' ∈ x ∧ '/' ∉ x := by decide
    have hprops : '.' ∈ e ∧ '/' ∉ e := hall2 e he
    exact h (dot_mem_lastSegment_of_suffix p e hprops.1 hprops.2 hend)

/-! ## Claim C5 -/

/-- The crawlability filter exactly as the claim C5 words it: reject an
empty (fragment-stripped) URL, a URL with a different authority, and a URL
containing a query-string `?`; accept unconditionally when the final path
segment has no dot; otherwise accept exactly when the lower-cased path does
not end with a denylisted extension and does end with one of `/`, `.html`,
`.htm`, `.php`. -/
def claim5Valid (c : SitemapCrawler) (u : Str) : Bool :=
  let v := urldefrag u
  if v = [] then false
  else if (urlparse v).netloc ≠ c.base_domain then false
  else if '?' ∈ v then false
  else if '.' ∉ lastSegment (urlparse v).path then true
  else
    (!excluded_extensions.any (fun e => endsWithStr (lowerStr (urlparse v).path) e)) &&
      allowed_endings.any (fun e => endsWithStr (lowerStr (urlparse v).path) e)

/-- Claim C5: the filter `is_valid_url` of the source coincides with the
claim's description on every URL string and every crawler.  The single
difference in evaluation order (the source tests the denylist before the
no-dot test) is immaterial because a path whose final segment has no dot
cannot end in a denylisted extension. -/
theorem claim5_filter_spec (c : SitemapCrawler) (u : Str) :
    is_valid_url c u = claim5Valid c u := by
  unfold is_valid_url claim5Valid
  by_cases h0 : urldefrag u = []
  · simp [h0]
  · simp only [h0, if_false]
    by_cases hn : (urlparse (urldefrag u)).netloc ≠ c.base_domain
    · simp [hn]
    · simp only [hn, if_false]
      by_cases hq : '?' ∈ urldefrag u
      · simp [hq]
      · simp only [hq, if_false]
        by_cases hdot : '.' ∈ lastSegment (urlparse (urldefrag u)).path
        · simp only [hdot, not_true, if_false]
          by_cases hex : excluded_extensions.any
              (fun e => endsWithStr (lowerStr (urlparse (urldefrag u)).path) e) = true
          · simp [hex]
          · simp only [Bool.not_eq_true] at hex
            simp [hex]
        · simp only [hdot, not_false_iff, if_true]
          rw [excluded_any_false_of_no_dot _ hdot]
          simp [hdot]

/-! ## Claim C3 -/

theorem rstripSlash_idem (s : Str) : rstripSlash (rstripSlash s) = rstripSlash s := by
  unfold rstripSlash
  rw [List.reverse_reverse, List.dropWhile_idempotent]

/-- The depth function exactly as claim C3 words it, including its count of
only the non-empty `/`-delimited segments of the relative path. -/
def claim3Depth (c : SitemapCrawler) (url : Str) : Int :=
  let up := rstripSlash (urlparse url).path
  let bp := rstripSlash c.base_path
  if up = bp then 0
  else
    let rel :=
      if bp ≠ [] ∧ (bp ++ ['/']).isPrefixOf up then stripSlash (up.drop bp.length)
      else stripSlash up
    if rel = [] then 0
    else (((splitOnChar '/' rel).filter (fun s : Str => s ≠ [])).length : Int)

/-- The depth function of claim C3 with the single forced amendment: all
`/`-delimited parts of the relative path are counted, empty parts from
consecutive slashes included, exactly as `len(relative.split('/'))`. -/
def claim3DepthAmended (c : SitemapCrawler) (url : Str) : Int :=
  let up := rstripSlash (urlparse url).path
  let bp := rstripSlash c.base_path
  if up = bp then 0
  else
    let rel :=
      if bp ≠ [] ∧ (bp ++ ['/']).isPrefixOf up then stripSlash (up.drop bp.length)
      else stripSlash up
    if rel = [] then 0
    else ((splitOnChar '/' rel).length : Int)

/-- The crawler seeded at the site root, whose `base_path` is empty. -/
def crawlerRoot : SitemapCrawler := SitemapCrawler.init "https://example.com/".toList

/-- The crawler of the claim C3 scenario, seeded at
`https://example.com/docs`. -/
def crawlerDocs : SitemapCrawler := SitemapCrawler.init "https://example.com/docs".toList

/-- Claim C3, counterexample.  For the seed `https://example.com/` the URL
`https://example.com/a//b` has relative path `a//b`; the source (line 246)
computes `len("a//b".split('/')) = 3`, while the claim's count of non-empty
segments is 2. -/
theorem claim3_counterexample :
    calculate_depth crawlerRoot "https://example.com/a//b".toList = 3 ∧
    claim3Depth crawlerRoot "https://example.com/a//b".toList = 2 := by
  constructor
  · rfl
  · rfl

/-- Claim C3, amended: for every crawler built by `__init__` and every URL,
`calculate_depth` is the non-negative depth described by the claim with all
`/`-delimited parts of the relative path counted (empty parts from
consecutive slashes included); and the scenario of the claim holds: with
seed `https://example.com/docs`, the four pages get depths 0, 1, 2, 1. -/
theorem claim3_depth_spec :
    (∀ (b u : Str),
      calculate_depth (SitemapCrawler.init b) u =
        claim3DepthAmended (SitemapCrawler.init b) u ∧
      0 ≤ calculate_depth (SitemapCrawler.init b) u) ∧
    (calculate_depth crawlerDocs "https://example.com/docs/".toList = 0 ∧
     calculate_depth crawlerDocs "https://example.com/docs/guide/".toList = 1 ∧
     calculate_depth crawlerDocs "https://example.com/docs/guide/intro.html".toList = 2 ∧
     calculate_depth crawlerDocs "https://example.com/docs/api/".toList = 1) := by
  refine ⟨fun b u => ⟨?_, ?_⟩, by decide, by decide, by decide, by decide⟩
  · have hbp : rstripSlash (SitemapCrawler.init b).base_path =
        (SitemapCrawler.init b).base_path := rstripSlash_idem _
    simp only [calculate_depth, claim3DepthAmended, hbp]
    split_ifs <;> rfl
  · simp only [calculate_depth]
    split_ifs <;> simp

/-! ## Claim C9 -/

/-- Python `re.sub(r'^https?://', '', url)` (source line 657): remove one
leading `http://` or `https://`, case-sensitively. -/
def stripScheme (u : Str) : Str :=
  if "https://".toList.isPrefixOf u then u.drop 8
  else if "http://".toList.isPrefixOf u then u.drop 7
  else u

/-- ASCII model of Python regex `\w`: letters, digits, underscore. -/
def pyIsWordChar (c : Char) : Bool := pyIsAsciiAlpha c || pyIsAsciiDigit c || c = '_'

/-- ASCII model of Python regex `\s`. -/
def pyIsSpaceChar (c : Char) : Bool :=
  c = ' ' || c = '\t' || c = '\n' || c = '\r' || c = '\x0b' || c = '\x0c'

/-- Python `re.sub(r'\s+', '_', s)`: replace every maximal whitespace run
by one underscore (accumulator form; the flag records whether the current
run has already emitted its underscore). -/
def collapseWsGo : Bool → Str → Str
  | _, [] => []
  | prevSpace, c :: rest =>
    if pyIsSpaceChar c then
      (if prevSpace then collapseWsGo true rest else '_' :: collapseWsGo true rest)
    else c :: collapseWsGo false rest

/-- Python `re.sub(r'\s+', '_', s)`. -/
def collapseWs (s : Str) : Str := collapseWsGo false s

/-- Python `s.strip('_')`: remove underscores at both ends
(source line 663). -/
def stripUnderscoreBoth (s : Str) : Str :=
  ((s.dropWhile (fun c => c = '_')).reverse.dropWhile (fun c => c = '_')).reverse

/-- Removal of trailing underscores only, as claim C9 words it. -/
def rstripUnderscore (s : Str) : Str := (s.reverse.dropWhile (fun c => c = '_')).reverse

/-- Embedding of `SitemapCrawler.sanitize_filename` (source lines 646-665):
drop the scheme, keep only word characters, whitespace and hyphens,
collapse whitespace runs to single underscores, and strip underscores at
both ends. -/
def sanitize_filename (u : Str) : Str :=
  let n1 := stripScheme u
  let n2 := n1.filter (fun c => pyIsWordChar c || pyIsSpaceChar c || c = '-')
  let n3 := collapseWs n2
  stripUnderscoreBoth n3

/-- The two output file names computed by `main` (source lines 689-691):
the sanitized input followed by `.csv` and by `.html`. -/
def mainFilenames (input : Str) : Str × Str :=
  (sanitize_filename input ++ ".csv".toList, sanitize_filename input ++ ".html".toList)

theorem length_dropWhile_le {α : Type} (p : α → Bool) (l : List α) :
    (l.dropWhile p).length ≤ l.length := by
  induction l with
  | nil => simp
  | cons a t ih =>
    rw [List.dropWhile_cons]
    split
    · exact Nat.le_succ_of_le ih
    · simp

/-- Whitespace-run collapsing in the direct recursive form used to state
claim C9 (one underscore per maximal whitespace run). -/
def claim9CollapseWs : Str → Str
  | [] => []
  | c :: rest =>
    if pyIsSpaceChar c then '_' :: claim9CollapseWs (rest.dropWhile pyIsSpaceChar)
    else c :: claim9CollapseWs rest
termination_by s => s.length
decreasing_by
  · simp only [List.length_cons]
    exact Nat.lt_succ_of_le (length_dropWhile_le _ _)
  · simp

theorem collapseWsGo_spec :
    ∀ (n : Nat) (s : Str), s.length ≤ n →
      collapseWsGo false s = claim9CollapseWs s ∧
      collapseWsGo true s = claim9CollapseWs (s.dropWhile pyIsSpaceChar) := by
  intro n
  induction n with
  | zero =>
    intro s hs
    have hnil : s = [] := List.eq_nil_of_length_eq_zero (Nat.le_zero.mp hs)
    subst hnil
    constructor <;> simp [collapseWsGo, claim9CollapseWs]
  | succ n ih =>
    intro s hs
    cases s with
    | nil => constructor <;> simp [collapseWsGo, claim9CollapseWs]
    | cons c rest =>
      have hr : rest.length ≤ n := by
        simpa using Nat.lt_succ_iff.mp (Nat.lt_of_lt_of_le (by simp) hs)
      by_cases hsp : pyIsSpaceChar c = true
      · constructor
        · rw [collapseWsGo, if_pos hsp, if_neg (by simp), claim9CollapseWs, if_pos hsp]
          rw [(ih rest hr).2]
        · rw [collapseWsGo, if_pos hsp, if_pos rfl, List.dropWhile_cons_of_pos hsp,
            (ih rest hr).2]
      · have hspf : pyIsSpaceChar c = false := Bool.not_eq_true _ ▸ (by simpa using hsp)
        constructor
        · rw [collapseWsGo, if_neg (by simp [hspf]), claim9CollapseWs, if_neg (by simp [hspf]),
            (ih rest hr).1]
        · rw [collapseWsGo, if_neg (by simp [hspf]), List.dropWhile_cons_of_neg (by simp [hspf]),
            claim9CollapseWs, if_neg (by simp [hspf]), (ih rest hr).1]

/-- The two collapse formulations agree. -/
theorem collapseWs_spec (s : Str) : claim9CollapseWs s = collapseWs s :=
  ((collapseWsGo_spec s.length s le_rfl).1).symm

/-- The sanitization exactly as claim C9 words it: scheme removed, all
non-word characters stripped (whitespace retained for the collapsing step),
whitespace runs collapsed to single underscores, trailing underscores
removed. -/
def claim9Sanitize (u : Str) : Str :=
  rstripUnderscore
    (claim9CollapseWs ((stripScheme u).filter (fun c => pyIsWordChar c || pyIsSpaceChar c)))

/-- The sanitization of claim C9 with the two forced amendments: hyphens
are kept (only characters that are not word characters, whitespace or
hyphens are stripped), and underscores are removed at both ends, not only
trailing ones. -/
def claim9SanitizeAmended (u : Str) : Str :=
  stripUnderscoreBoth
    (claim9CollapseWs
      ((stripScheme u).filter (fun c => pyIsWordChar c || pyIsSpaceChar c || c = '-')))

/-- Claim C9, counterexample.  For the input `https://_a-b.com` the code
(source lines 657-663) keeps the hyphen (its regex removes only characters
outside `[\w\s-]`) and strips the leading underscore (Python `strip('_')`
strips both ends), producing `a-bcom`; the claim's description produces
`_abcom`. -/
theorem claim9_counterexample :
    sanitize_filename "https://_a-b.com".toList = "a-bcom".toList ∧
    claim9Sanitize "https://_a-b.com".toList = "_abcom".toList ∧
    sanitize_filename "https://_a-b.com".toList ≠
      claim9Sanitize "https://_a-b.com".toList := by
  have h1 : sanitize_filename "https://_a-b.com".toList = "a-bcom".toList := rfl
  have h2 : claim9Sanitize "https://_a-b.com".toList = "_abcom".toList := by
    unfold claim9Sanitize
    rw [collapseWs_spec]
    rfl
  exact ⟨h1, h2, by rw [h1, h2]; decide⟩

/-- Claim C9, amended: for every input URL string the base name is the
input with its `http://` or `https://` scheme removed, all characters
other than word characters, whitespace and hyphens stripped, whitespace
runs collapsed to single underscores, and underscores removed at both
ends; the two files written are exactly `<name>.csv` and `<name>.html`. -/
theorem claim9_filename_spec :
    (∀ u : Str, sanitize_filename u = claim9SanitizeAmended u) ∧
    (∀ u : Str, mainFilenames u =
      (claim9SanitizeAmended u ++ ".csv".toList, claim9SanitizeAmended u ++ ".html".toList)) := by
  have h : ∀ u : Str, sanitize_filename u = claim9SanitizeAmended u := by
    intro u
    unfold sanitize_filename claim9SanitizeAmended
    rw [collapseWs_spec]
  exact ⟨h, fun u => by rw [mainFilenames, h u]⟩

/-! ## The tree builder (`_build_tree`, source lines 576-606)

Python builds the tree out of mutable dicts that alias each other through
`depth_map`; the embedding gives every created node an integer id (the
sentinel root is id 0, the node of the i-th attached record is id i), keeps
the children lists and the node data in id-indexed lists, and maps each
depth to the id of the node most recently placed at it. -/

/-- The state of `_build_tree`: children ids per node id, node data
(url, title-with-fallback, depth) per node id, and the depth map. -/
structure BTState where
  childrenArr : List (List Nat)
  dataArr : List (Str × Str × Int)
  depthMap : List (Int × Nat)
deriving DecidableEq

/-- Lookup in the depth map (`parent_depth in depth_map`); the most
recently added binding wins, as consing models dict overwrite. -/
def lookupD (dm : List (Int × Nat)) (d : Int) : Option Nat :=
  match dm with
  | [] => none
  | (k, v) :: rest => if k = d then some v else lookupD rest d

/-- The scan of the while loop (source lines 599-604) over the probes
`(k : Int) - 1, k - 2, ..., -1` (`findFrom dm (j + 1)` probes
`(j : Int) - 1` first). -/
def findFrom (dm : List (Int × Nat)) : Nat → Option Nat
  | 0 => none
  | k + 1 =>
    match lookupD dm ((k : Int) - 1) with
    | some i => some i
    | none => findFrom dm k

/-- The parent search of `_build_tree`: scan downward from `depth - 1` to
`-1` for the first depth present in the map; `none` when the loop falls
through without attaching (only possible for `depth < 0`). -/
def findAttach (dm : List (Int × Nat)) (depth : Int) : Option Nat :=
  findFrom dm (depth + 1).toNat

/-- The initial builder state: sentinel root `{'children': []}` with id 0,
registered at depth `-1` (source lines 586-587). -/
def initBT : BTState := ⟨[[]], [(([] : Str), ([] : Str), (0 : Int))], [(-1, 0)]⟩

/-- One iteration of the record loop of `_build_tree` (source lines
589-604): build the node (with `title or url` fallback, line 592), scan for
the attachment point, append the node as a child and register it as the
most recent node of its depth; a record whose scan fails is dropped. -/
def btStep (st : BTState) (r : Str × Str × Int) : BTState :=
  let newId := st.childrenArr.length
  let nodeData := (r.1, (if r.2.1 = [] then r.1 else r.2.1), r.2.2)
  match findAttach st.depthMap r.2.2 with
  | none => st
  | some pid =>
    { childrenArr := (st.childrenArr.set pid ((st.childrenArr.getD pid []) ++ [newId])) ++ [[]],
      dataArr := st.dataArr ++ [nodeData],
      depthMap := (r.2.2, newId) :: st.depthMap }

/-- Embedding of `SitemapCrawler._build_tree`. -/
def build_tree (records : List (Str × Str × Int)) : BTState :=
  records.foldl btStep initBT

/-- Pre-order flattening of the built tree from a node id, listing each
node's stored (url, title, depth) record; `fuel` bounds the descent. -/
def flattenId (st : BTState) : Nat → Nat → List (Str × Str × Int)
  | 0, _ => []
  | fuel + 1, i =>
    st.dataArr.getD i (([] : Str), ([] : Str), (0 : Int)) ::
      (st.childrenArr.getD i []).flatMap (fun cid => flattenId st fuel cid)

/-- Build the tree from the records and flatten it back in pre-order
(the sentinel root itself is not listed, its child forest is). -/
def builtFlatten (records : List (Str × Str × Int)) : List (Str × Str × Int) :=
  (build_tree records).childrenArr.getD 0 [] |>.flatMap
    (fun cid => flattenId (build_tree records) records.length cid)

/-! ## Claim C10 -/

theorem lookupD_cons_ne (d e : Int) (i : Nat) (dm : List (Int × Nat)) (h : d ≠ e) :
    lookupD ((d, i) :: dm) e = lookupD dm e := by
  simp [lookupD, h]

theorem findFrom_isSome (dm : List (Int × Nat))
    (h : (lookupD dm (-1)).isSome = true) :
    ∀ k : Nat, (findFrom dm (k + 1)).isSome = true := by
  intro k
  induction k with
  | zero =>
    unfold findFrom
    have h1 : ((0 : Nat) : Int) - 1 = -1 := by omega
    rw [h1]
    obtain ⟨i, hi⟩ := Option.isSome_iff_exists.mp h
    rw [hi]
    rfl
  | succ n ih =>
    unfold findFrom
    cases hl : lookupD dm ((n + 1 : Nat) - 1 : Int) with
    | some i => rfl
    | none => exact ih

/-- With the sentinel depth `-1` present, the scan succeeds for every
depth that is at least 0. -/
theorem findAttach_isSome (dm : List (Int × Nat)) (d : Int) (hd : 0 ≤ d)
    (h : (lookupD dm (-1)).isSome = true) : (findAttach dm d).isSome = true := by
  unfold findAttach
  have h1 : (d + 1).toNat = d.toNat + 1 := by omega
  rw [h1]
  exact findFrom_isSome dm h d.toNat

theorem build_tree_go (records : List (Str × Str × Int)) :
    ∀ st : BTState,
      (lookupD st.depthMap (-1)).isSome = true →
      (∀ r ∈ records, 0 ≤ r.2.2) →
      (records.foldl btStep st).dataArr =
        st.dataArr ++ records.map (fun r => (r.1, (if r.2.1 = [] then r.1 else r.2.1), r.2.2)) ∧
      (lookupD (records.foldl btStep st).depthMap (-1)).isSome = true := by
  induction records with
  | nil => intro st hs _; exact ⟨by simp, hs⟩
  | cons r rs ih =>
    intro st hs hd
    have hd0 : 0 ≤ r.2.2 := hd r (List.mem_cons_self r rs)
    obtain ⟨pid, hpid⟩ :=
      Option.isSome_iff_exists.mp (findAttach_isSome st.depthMap r.2.2 hd0 hs)
    have hstep : btStep st r =
        { childrenArr := (st.childrenArr.set pid
            ((st.childrenArr.getD pid []) ++ [st.childrenArr.length])) ++ [[]],
          dataArr := st.dataArr ++ [(r.1, (if r.2.1 = [] then r.1 else r.2.1), r.2.2)],
          depthMap := (r.2.2, st.childrenArr.length) :: st.depthMap } := by
      unfold btStep
      rw [hpid]
    have hs2 : (lookupD (btStep st r).depthMap (-1)).isSome = true := by
      rw [hstep]
      rw [lookupD_cons_ne _ _ _ _ (by omega : r.2.2 ≠ -1)]
      exact hs
    have := ih (btStep st r) hs2 (fun x hx => hd x (List.mem_cons_of_mem r hx))
    refine ⟨?_, this.2⟩
    rw [List.foldl_cons] at *
    rw [this.1, hstep]
    simp

/-- Claim C10: for every record list with all depths non-negative,
`_build_tree` attaches exactly one node per input record, in order and
with the `title or url` fallback applied — no record is dropped or
duplicated, because the sentinel entry at depth `-1` stays in the depth
map throughout and the downward scan therefore always finds an attachment
point. -/
theorem claim10_one_node_per_record (records : List (Str × Str × Int))
    (h : ∀ r ∈ records, 0 ≤ r.2.2) :
    (build_tree records).dataArr =
      initBT.dataArr ++
        records.map (fun r => (r.1, (if r.2.1 = [] then r.1 else r.2.1), r.2.2)) ∧
    (build_tree records).dataArr.length = records.length + 1 := by
  have hinit : (lookupD initBT.depthMap (-1)).isSome = true := rfl
  have hmain := build_tree_go records initBT hinit h
  refine ⟨hmain.1, ?_⟩
  rw [show (build_tree records).dataArr = (records.foldl btStep initBT).dataArr from rfl,
    hmain.1]
  simp [initBT, Nat.add_comm]

/-- Witness for `claim10_one_node_per_record` on a concrete non-pre-order
record list. -/
theorem claim10_witness :
    (build_tree [("http://h/a/".toList, "A".toList, (1 : Int)),
                 ("http://h/".toList, "R".toList, (0 : Int))]).dataArr.length = 3 :=
  (claim10_one_node_per_record
    [("http://h/a/".toList, "A".toList, (1 : Int)),
     ("http://h/".toList, "R".toList, (0 : Int))] (by decide)).2

/-! ## Claim C7: abstract trees and their pre-order flattening -/

/-- An abstract page tree: url, title and subtrees.  A record list is a
valid pre-order traversal of a single rooted hierarchy exactly when it is
`flatN 0 t` for such a tree `t`. -/
inductive Node where
  | node (url : Str) (title : Str) (children : List Node)

mutual

/-- Number of nodes of a tree. -/
def sizeN : Node → Nat
  | .node _ _ cs => 1 + sizeF cs

/-- Number of nodes of a forest. -/
def sizeF : List Node → Nat
  | [] => 0
  | c :: cs => sizeN c + sizeF cs

end

mutual

/-- Pre-order flattening of a tree rooted at depth `d`, with positional
depths — the record list the crawl produces for this hierarchy. -/
def flatN : Int → Node → List (Str × Str × Int)
  | d, .node u ti cs => (u, ti, d) :: flatF (d + 1) cs

/-- Pre-order flattening of a forest of siblings at depth `d`. -/
def flatF : Int → List Node → List (Str × Str × Int)
  | _, [] => []
  | d, c :: cs => flatN d c ++ flatF d cs

end

mutual

/-- Height of a tree (the flatten fuel it needs). -/
def heightN : Node → Nat
  | .node _ _ cs => heightF cs + 1

/-- Height of a forest. -/
def heightF : List Node → Nat
  | [] => 0
  | c :: cs => max (heightN c) (heightF cs)

end

mutual

/-- All titles in the tree are nonempty. -/
def titlesOkN : Node → Bool
  | .node _ ti cs => (ti ≠ ([] : Str)) && titlesOkF cs

/-- All titles in the forest are nonempty. -/
def titlesOkF : List Node → Bool
  | [] => true
  | c :: cs => titlesOkN c && titlesOkF cs

end

theorem sizeN_pos (t : Node) : 1 ≤ sizeN t := by
  cases t with
  | node u ti cs => simp [sizeN]

theorem flatF_length_go (n : Nat) :
    ∀ (cs : List Node) (d : Int), sizeF cs ≤ n → (flatF d cs).length = sizeF cs := by
  induction n with
  | zero =>
    intro cs d hsz
    cases cs with
    | nil => simp [flatF, sizeF]
    | cons c cs2 =>
      exfalso
      have := sizeN_pos c
      simp [sizeF] at hsz
      omega
  | succ n ih =>
    intro cs d hsz
    cases cs with
    | nil => simp [flatF, sizeF]
    | cons c cs2 =>
      cases c with
      | node u ti gs =>
        have h1 : sizeF gs ≤ n := by
          have := sizeN_pos (Node.node u ti gs)
          simp [sizeF, sizeN] at *
          omega
        have h2 : sizeF cs2 ≤ n := by
          have := sizeN_pos (Node.node u ti gs)
          simp [sizeF] at *
          omega
        simp only [flatF, flatN, List.length_append, List.length_cons,
          ih gs (d + 1) h1, ih cs2 d h2, sizeF, sizeN]
        omega

/-- The flattening of a forest has exactly one record per node. -/
theorem flatF_length (cs : List Node) (d : Int) : (flatF d cs).length = sizeF cs :=
  flatF_length_go (sizeF cs) cs d le_rfl

theorem heightF_le_sizeF_go (n : Nat) :
    ∀ cs : List Node, sizeF cs ≤ n → heightF cs ≤ sizeF cs := by
  induction n with
  | zero =>
    intro cs hsz
    cases cs with
    | nil => simp [heightF, sizeF]
    | cons c cs2 =>
      exfalso
      have := sizeN_pos c
      simp [sizeF] at hsz
      omega
  | succ n ih =>
    intro cs hsz
    cases cs with
    | nil => simp [heightF, sizeF]
    | cons c cs2 =>
      cases c with
      | node u ti gs =>
        have h1 : sizeF gs ≤ n := by
          have := sizeN_pos (Node.node u ti gs)
          simp [sizeF, sizeN] at *
          omega
        have h2 : sizeF cs2 ≤ n := by
          have := sizeN_pos (Node.node u ti gs)
          simp [sizeF] at *
          omega
        have hg := ih gs h1
        have hc := ih cs2 h2
        simp only [heightF, heightN, sizeF, sizeN, max_le_iff]
        omega

/-- The height of a forest is at most its node count. -/
theorem heightF_le_sizeF (cs : List Node) : heightF cs ≤ sizeF cs :=
  heightF_le_sizeF_go (sizeF cs) cs le_rfl

/-! ## List index helpers for the builder proofs -/

theorem getD_append_lt {α : Type} (l1 l2 : List α) (i : Nat) (d : α)
    (h : i < l1.length) : (l1 ++ l2).getD i d = l1.getD i d :=
  List.getD_append l1 l2 d i h

theorem getD_append_len {α : Type} (l1 : List α) (a d : α) :
    (l1 ++ [a]).getD l1.length d = a := by
  rw [List.getD_eq_getElem?_getD, List.getElem?_append_right (le_refl _)]
  simp

theorem getD_set_ne {α : Type} (l : List α) (i j : Nat) (x d : α) (h : i ≠ j) :
    (l.set i x).getD j d = l.getD j d := by
  rw [List.getD_eq_getElem?_getD, List.getD_eq_getElem?_getD, List.getElem?_set_ne h]

theorem getD_set_self {α : Type} (l : List α) (i : Nat) (x d : α) (h : i < l.length) :
    (l.set i x).getD i d = x := by
  simp [List.getD_eq_getElem?_getD, List.getElem?_set_self, h]

theorem flatMap_congr_mem {α β : Type} (l : List α) (f g : α → List β)
    (h : ∀ x ∈ l, f x = g x) : l.flatMap f = l.flatMap g := by
  induction l with
  | nil => rfl
  | cons a t ih =>
    simp only [List.flatMap_cons]
    rw [h a (List.mem_cons_self a t), ih (fun x hx => h x (List.mem_cons_of_mem a hx))]

/-- The default record used by `flattenId`. -/
def dfltRec : Str × Str × Int := (([] : Str), ([] : Str), (0 : Int))

/-- Flattening only looks at the children lists and data of the ids it
reaches; two states that agree on an id range closed under children give
the same flattening inside that range. -/
theorem flattenId_frame (stA stB : BTState) (lo hi : Nat)
    (hch : ∀ j, lo ≤ j → j < hi → stB.childrenArr.getD j [] = stA.childrenArr.getD j [])
    (hdt : ∀ j, lo ≤ j → j < hi → stB.dataArr.getD j dfltRec = stA.dataArr.getD j dfltRec)
    (hcl : ∀ j, lo ≤ j → j < hi →
      ∀ x ∈ stA.childrenArr.getD j [], lo ≤ x ∧ x < hi) :
    ∀ (fuel i : Nat), lo ≤ i → i < hi → flattenId stB fuel i = flattenId stA fuel i := by
  intro fuel
  induction fuel with
  | zero => intro i _ _; rfl
  | succ f ih =>
    intro i h1 h2
    show stB.dataArr.getD i dfltRec :: _ = stA.dataArr.getD i dfltRec :: _
    rw [hch i h1 h2, hdt i h1 h2]
    congr 1
    apply flatMap_congr_mem
    intro x hx
    have hb := hcl i h1 h2 x hx
    exact ih x hb.1 hb.2

/-- Processing the flattening of a forest through the builder loop. -/
def procF (d : Int) (cs : List Node) (st : BTState) : BTState :=
  (flatF d cs).foldl btStep st

/-- Everything the builder induction proves about processing the pre-order
records of a forest `cs` of siblings at depth `d` from state `st`, where
`pid` is the id mapped at depth `d - 1`: sizes grow by the node count, data
and children of existing nodes other than `pid` are untouched, the new
nodes are attached below `pid` (the forest roots in order, each subtree
flattening back to its own records), the new ids are closed among
themselves, and depth-map entries at or below `d - 1` are unchanged. -/
def BuildOutF (cs : List Node) (d : Int) (st : BTState) (pid : Nat) : Prop :=
  (procF d cs st).childrenArr.length = st.childrenArr.length + sizeF cs ∧
  (procF d cs st).dataArr.length = (procF d cs st).childrenArr.length ∧
  (∀ i, i < st.childrenArr.length → i ≠ pid →
    (procF d cs st).childrenArr.getD i [] = st.childrenArr.getD i []) ∧
  (∀ i, i < st.dataArr.length →
    (procF d cs st).dataArr.getD i dfltRec = st.dataArr.getD i dfltRec) ∧
  (∀ j, st.childrenArr.length ≤ j → j < (procF d cs st).childrenArr.length →
    ∀ x ∈ (procF d cs st).childrenArr.getD j [],
      st.childrenArr.length ≤ x ∧ x < (procF d cs st).childrenArr.length) ∧
  (∀ e : Int, e ≤ d - 1 →
    lookupD (procF d cs st).depthMap e = lookupD st.depthMap e) ∧
  (∃ roots : List Nat,
    (procF d cs st).childrenArr.getD pid [] = st.childrenArr.getD pid [] ++ roots ∧
    (∀ i ∈ roots, st.childrenArr.length ≤ i ∧ i < (procF d cs st).childrenArr.length) ∧
    (∀ fuel, heightF cs ≤ fuel →
      roots.flatMap (fun r2 => flattenId (procF d cs st) fuel r2) = flatF d cs))

theorem buildOutF_nil (d : Int) (st : BTState) (pid : Nat)
    (hlen : st.dataArr.length = st.childrenArr.length) : BuildOutF [] d st pid := by
  have hid : procF d [] st = st := rfl
  refine ⟨?_, ?_, ?_, ?_, ?_, ?_, [], ?_, ?_, ?_⟩ <;>
    simp [hid, sizeF, flatF, hlen]
  intro j h1 h2
  omega

theorem findAttach_eq_of_lookup (dm : List (Int × Nat)) (d : Int) (pid : Nat)
    (hd : 0 ≤ d) (h : lookupD dm (d - 1) = some pid) : findAttach dm d = some pid := by
  unfold findAttach
  have h1 : (d + 1).toNat = d.toNat + 1 := by omega
  rw [h1]
  unfold findFrom
  have h2 : ((d.toNat : Nat) : Int) - 1 = d - 1 := by omega
  rw [h2, h]

theorem btStep_attach (st : BTState) (u ti : Str) (d : Int) (pid : Nat)
    (hd : 0 ≤ d) (hti : ti ≠ []) (hmap : lookupD st.depthMap (d - 1) = some pid) :
    btStep st (u, ti, d) =
      { childrenArr := (st.childrenArr.set pid
          ((st.childrenArr.getD pid []) ++ [st.childrenArr.length])) ++ [[]],
        dataArr := st.dataArr ++ [(u, ti, d)],
        depthMap := (d, st.childrenArr.length) :: st.depthMap } := by
  unfold btStep
  rw [findAttach_eq_of_lookup st.depthMap d pid hd hmap]
  rw [if_neg hti]

theorem procF_cons (d : Int) (u ti : Str) (gs cs2 : List Node) (st : BTState) :
    procF d (Node.node u ti gs :: cs2) st =
      procF d cs2 (procF (d + 1) gs (btStep st (u, ti, d))) := by
  unfold procF
  simp only [flatF, flatN]
  rw [List.foldl_append, List.foldl_cons]

theorem buildF_main (n : Nat) :
    ∀ (cs : List Node) (d : Int) (st : BTState) (pid : Nat),
      sizeF cs ≤ n →
      0 ≤ d →
      st.dataArr.length = st.childrenArr.length →
      lookupD st.depthMap (d - 1) = some pid →
      pid < st.childrenArr.length →
      titlesOkF cs = true →
      BuildOutF cs d st pid := by
  induction n with
  | zero =>
    intro cs d st pid hsz hd hlen hmap hpid htit
    cases cs with
    | nil => exact buildOutF_nil d st pid hlen
    | cons c cs2 =>
      exfalso
      have := sizeN_pos c
      simp [sizeF] at hsz
      omega
  | succ n ih =>
    intro cs d st pid hsz hd hlen hmap hpid htit
    cases cs with
    | nil => exact buildOutF_nil d st pid hlen
    | cons c cs2 =>
      cases c with
      | node u ti gs =>
        simp only [titlesOkF, titlesOkN, Bool.and_eq_true, decide_eq_true_eq] at htit
        have hti : ti ≠ [] := htit.1.1
        have htitgs : titlesOkF gs = true := htit.1.2
        have htitcs2 : titlesOkF cs2 = true := htit.2
        have hszgs : sizeF gs ≤ n := by
          simp only [sizeF, sizeN] at hsz
          omega
        have hszcs2 : sizeF cs2 ≤ n := by
          simp only [sizeF, sizeN] at hsz
          omega
        have hA := btStep_attach st u ti d pid hd hti hmap
        unfold BuildOutF
        rw [procF_cons]
        set stA := btStep st (u, ti, d) with hstAdef
        -- facts about the state after attaching the root record
        have hAc_len : stA.childrenArr.length = st.childrenArr.length + 1 := by
          rw [hA]
          simp [List.length_set]
        have hAd_len : stA.dataArr.length = st.dataArr.length + 1 := by
          rw [hA]
          simp
        have hA_dm : stA.depthMap = (d, st.childrenArr.length) :: st.depthMap := by
          rw [hA]
        have hA_map : lookupD stA.depthMap (d + 1 - 1) = some st.childrenArr.length := by
          rw [hA_dm]
          have he : d + 1 - 1 = d := by omega
          rw [he]
          simp [lookupD]
        have hA_child_pid : stA.childrenArr.getD pid [] =
            st.childrenArr.getD pid [] ++ [st.childrenArr.length] := by
          rw [hA]
          exact (getD_append_lt _ _ _ _ (by rw [List.length_set]; exact hpid)).trans
            (getD_set_self _ _ _ _ hpid)
        have hA_child_new : stA.childrenArr.getD st.childrenArr.length [] = [] := by
          rw [hA]
          have h2 := getD_append_len
            (st.childrenArr.set pid ((st.childrenArr.getD pid []) ++ [st.childrenArr.length]))
            ([] : List Nat) ([] : List Nat)
          rw [List.length_set] at h2
          exact h2
        have hA_child_old : ∀ i, i < st.childrenArr.length → i ≠ pid →
            stA.childrenArr.getD i [] = st.childrenArr.getD i [] := by
          intro i h1 h2
          rw [hA]
          exact (getD_append_lt _ _ _ _ (by rw [List.length_set]; exact h1)).trans
            (getD_set_ne _ _ _ _ _ (Ne.symm h2))
        have hA_data_old : ∀ i, i < st.dataArr.length →
            stA.dataArr.getD i dfltRec = st.dataArr.getD i dfltRec := by
          intro i h1
          rw [hA]
          exact getD_append_lt _ _ _ _ h1
        have hA_data_new : stA.dataArr.getD st.dataArr.length dfltRec = (u, ti, d) := by
          rw [hA]
          exact getD_append_len _ _ _
        -- the forest of children of the root, processed at depth d + 1
        have IHg := ih gs (d + 1) stA st.childrenArr.length hszgs (by omega)
          (by rw [hAd_len, hAc_len, hlen]) hA_map (by omega) htitgs
        obtain ⟨g1, g2, g3, g4, g5, g6, rootsG, gr1, gr2, gr3⟩ := IHg
        set stB := procF (d + 1) gs stA with hstBdef
        have hBc_len : stB.childrenArr.length =
            st.childrenArr.length + 1 + sizeF gs := by
          rw [g1, hAc_len]
        -- the remaining siblings, processed at depth d
        have hB_map : lookupD stB.depthMap (d - 1) = some pid := by
          rw [g6 (d - 1) (by omega), hA_dm,
            lookupD_cons_ne _ _ _ _ (by omega : d ≠ d - 1)]
          exact hmap
        have IHc := ih cs2 d stB pid hszcs2 hd g2 hB_map (by omega) htitcs2
        obtain ⟨c1, c2, c3, c4, c5, c6, rootsC, cr1, cr2, cr3⟩ := IHc
        have hCc_len : (procF d cs2 stB).childrenArr.length =
            st.childrenArr.length + sizeF (Node.node u ti gs :: cs2) := by
          rw [c1, hBc_len]
          simp only [sizeF, sizeN]
          omega
        refine ⟨hCc_len, c2, ?_, ?_, ?_, ?_, st.childrenArr.length :: rootsC, ?_, ?_, ?_⟩
        · -- children of old nodes other than pid are untouched
          intro i h1 h2
          rw [c3 i (by omega) h2, g3 i (by omega) (by omega), hA_child_old i h1 h2]
        · -- data of old nodes is untouched
          intro i h1
          rw [c4 i (by omega), g4 i (by omega), hA_data_old i h1]
        · -- children of new nodes stay among the new nodes
          intro j h1 h2 x hx
          by_cases hj : j < stB.childrenArr.length
          · rw [c3 j hj (by omega)] at hx
            by_cases hj2 : j = st.childrenArr.length
            · subst hj2
              rw [gr1, hA_child_new, List.nil_append] at hx
              have hb := gr2 x hx
              omega
            · have hb := g5 j (by omega) hj x hx
              omega
          · have hb := c5 j (by omega) h2 x hx
            omega
        · -- depth map entries at e ≤ d - 1 are unchanged
          intro e he
          rw [c6 e he, g6 e (by omega), hA_dm,
            lookupD_cons_ne _ _ _ _ (by omega : d ≠ e)]
        · -- children of pid gain exactly the forest roots, in order
          rw [cr1, g3 pid (by omega) (by omega), hA_child_pid]
          simp
        · -- the new root ids lie in the new range
          intro i hi
          rcases List.mem_cons.mp hi with h | h
          · omega
          · have hb := cr2 i h
            omega
        · -- the forest roots flatten back to the forest records
          intro fuel hf
          simp only [heightF, heightN, max_le_iff] at hf
          obtain ⟨f, rfl⟩ : ∃ f, fuel = f + 1 := ⟨fuel - 1, by omega⟩
          simp only [List.flatMap_cons]
          have hframe : flattenId (procF d cs2 stB) (f + 1) st.childrenArr.length =
              flattenId stB (f + 1) st.childrenArr.length := by
            apply flattenId_frame stB (procF d cs2 stB)
              st.childrenArr.length stB.childrenArr.length
            · intro j h1 h2
              exact c3 j h2 (by omega)
            · intro j h1 h2
              exact c4 j (by omega)
            · intro j h1 h2 x hx
              by_cases hj2 : j = st.childrenArr.length
              · subst hj2
                rw [gr1, hA_child_new, List.nil_append] at hx
                have hb := gr2 x hx
                omega
              · have hb := g5 j (by omega) h2 x hx
                omega
            · omega
            · omega
          have hroot : flattenId stB (f + 1) st.childrenArr.length =
              (u, ti, d) :: flatF (d + 1) gs := by
            show stB.dataArr.getD st.childrenArr.length dfltRec ::
              (stB.childrenArr.getD st.childrenArr.length []).flatMap
                (fun cid => flattenId stB f cid) = _
            rw [gr1, hA_child_new, List.nil_append]
            rw [show stB.dataArr.getD st.childrenArr.length dfltRec =
                stA.dataArr.getD st.childrenArr.length dfltRec from
              g4 st.childrenArr.length (by omega)]
            rw [show stA.dataArr.getD st.childrenArr.length dfltRec = (u, ti, d) from by
              rw [← hlen]
              exact hA_data_new]
            rw [gr3 f (by omega)]
          rw [hframe, hroot, cr3 (f + 1) (by omega)]
          simp [flatF, flatN]

/-- Claim C7, counterexample.  The single record `(url, '', 0)` is the
pre-order traversal of the one-node hierarchy whose title is empty; the
tree builder stores `title or url` (source line 592), so flattening the
built tree yields the URL in the title position and does not reproduce the
input. -/
theorem claim7_counterexample :
    flatN 0 (Node.node "https://h/".toList ([] : Str) []) =
      [("https://h/".toList, ([] : Str), (0 : Int))] ∧
    builtFlatten [("https://h/".toList, ([] : Str), (0 : Int))] =
      [("https://h/".toList, "https://h/".toList, (0 : Int))] ∧
    builtFlatten [("https://h/".toList, ([] : Str), (0 : Int))] ≠
      [("https://h/".toList, ([] : Str), (0 : Int))] := by
  refine ⟨by simp [flatN, flatF], rfl, by decide⟩

/-- Claim C7, amended: for every input record list that is a valid
pre-order traversal of a single rooted hierarchy (root at depth 0, each
child one deeper than its parent, every subtree contiguous — that is, the
list `flatN 0 t` of a tree `t`) in which every record's title is nonempty,
flattening the tree built by `_build_tree` back in pre-order with node
depths exactly reproduces the input list.  (For a record with an empty
title the builder substitutes the URL, so the reproduction is exact only
up to that title fallback.) -/
theorem claim7_roundtrip (t : Node) (htit : titlesOkN t = true) :
    builtFlatten (flatN 0 t) = flatN 0 t := by
  have h := buildF_main (sizeF [t]) [t] 0 initBT 0 le_rfl le_rfl rfl (by decide)
    (by decide) (by simp [titlesOkF, htit])
  obtain ⟨h1, h2, h3, h4, h5, h6, roots, hr1, hr2, hr3⟩ := h
  have hbt : build_tree (flatN 0 t) = procF 0 [t] initBT := by
    unfold build_tree procF
    simp [flatF]
  have hlenrec : (flatN 0 t).length = sizeF [t] := by
    have := flatF_length [t] 0
    simp only [flatF, List.append_nil] at this
    exact this
  have hfuel : heightF [t] ≤ (flatN 0 t).length := by
    rw [hlenrec]
    exact heightF_le_sizeF [t]
  unfold builtFlatten
  rw [hbt, hr1]
  have hinit0 : initBT.childrenArr.getD 0 [] = [] := rfl
  rw [hinit0, List.nil_append, hr3 (flatN 0 t).length hfuel]
  simp [flatF]

/-- Witness for `claim7_roundtrip` on a concrete two-node hierarchy. -/
theorem claim7_witness :
    builtFlatten (flatN 0 (Node.node "http://h/".toList "R".toList
      [Node.node "http://h/a/".toList "A".toList []])) =
      flatN 0 (Node.node "http://h/".toList "R".toList
        [Node.node "http://h/a/".toList "A".toList []]) :=
  claim7_roundtrip
    (Node.node "http://h/".toList "R".toList
      [Node.node "http://h/a/".toList "A".toList []]) (by decide)

/-! ## Claim C4: lemmas about the split primitives -/

theorem splitFirst_spec (ch : Char) (s : Str) :
    (∃ a b, splitFirst ch s = some (a, b) ∧ s = a ++ ch :: b ∧ ch ∉ a) ∨
    (splitFirst ch s = none ∧ ch ∉ s) := by
  induction s with
  | nil => right; simp [splitFirst]
  | cons x rest ih =>
    by_cases hx : x = ch
    · left
      subst hx
      exact ⟨[], rest, by simp [splitFirst], by simp, by simp⟩
    · rcases ih with ⟨a, b, h1, h2, h3⟩ | ⟨h1, h2⟩
      · left
        refine ⟨x :: a, b, ?_, by simp [h2], ?_⟩
        · simp [splitFirst, hx, h1]
        · simp only [List.mem_cons, not_or]
          exact ⟨fun he => hx he.symm, h3⟩
      · right
        constructor
        · simp [splitFirst, hx, h1]
        · simp only [List.mem_cons, not_or]
          exact ⟨fun he => hx he.symm, h2⟩

theorem splitFirst_eq_some (ch : Char) (s a b : Str)
    (h : splitFirst ch s = some (a, b)) : s = a ++ ch :: b ∧ ch ∉ a := by
  rcases splitFirst_spec ch s with ⟨a2, b2, h1, h2, h3⟩ | ⟨h1, _⟩
  · rw [h] at h1
    simp only [Option.some_inj, Prod.mk.injEq] at h1
    rw [h1.1, h1.2]
    exact ⟨h2, h3⟩
  · rw [h] at h1
    exact absurd h1 (by simp)

theorem splitFirst_none_not_mem (ch : Char) (s : Str)
    (h : splitFirst ch s = none) : ch ∉ s := by
  rcases splitFirst_spec ch s with ⟨a2, b2, h1, _, _⟩ | ⟨_, h2⟩
  · rw [h] at h1
    exact absurd h1 (by simp)
  · exact h2

theorem splitFirst_of_not_mem (ch : Char) (s : Str) (h : ch ∉ s) :
    splitFirst ch s = none := by
  rcases splitFirst_spec ch s with ⟨a2, b2, h1, h2, _⟩ | ⟨h1, _⟩
  · exfalso
    exact h (h2 ▸ (by simp : ch ∈ a2 ++ ch :: b2))
  · exact h1

theorem splitFirst_append (ch : Char) (a b : Str) (h : ch ∉ a) :
    splitFirst ch (a ++ ch :: b) = some (a, b) := by
  induction a with
  | nil => simp [splitFirst]
  | cons x rest ih =>
    have hx : x ≠ ch := fun he => h (he ▸ List.mem_cons_self x rest)
    have ih2 := ih (fun hm => h (List.mem_cons_of_mem x hm))
    simp [splitFirst, hx, ih2]

theorem splitLast_eq_some (ch : Char) (s a b : Str)
    (h : splitLast ch s = some (a, b)) : s = a ++ ch :: b ∧ ch ∉ b := by
  unfold splitLast at h
  cases hs : splitFirst ch s.reverse with
  | none =>
    rw [hs] at h
    exact absurd h (by simp)
  | some p =>
    obtain ⟨pa, pb⟩ := p
    rw [hs] at h
    simp only [Option.map_some', Option.some_inj, Prod.mk.injEq] at h
    obtain ⟨h1, h2⟩ := splitFirst_eq_some ch s.reverse pa pb hs
    constructor
    · have h3 := congrArg List.reverse h1
      rw [List.reverse_reverse] at h3
      rw [h3, ← h.1, ← h.2]
      simp
    · rw [← h.2]
      simpa using h2

theorem splitLast_eq_none (ch : Char) (s : Str) (h : splitLast ch s = none) : ch ∉ s := by
  unfold splitLast at h
  cases hs : splitFirst ch s.reverse with
  | none =>
    have h2 := splitFirst_none_not_mem ch s.reverse hs
    simpa using h2
  | some p =>
    rw [hs] at h
    exact absurd h (by simp)

theorem lastSegment_no_slash (p : Str) (h : '/' ∉ p) : lastSegment p = p := by
  unfold lastSegment
  rw [List.takeWhile_eq_self_iff.mpr, List.reverse_reverse]
  intro x hx
  simp only [ne_eq, decide_eq_true_eq]
  intro he
  exact h (he ▸ List.mem_reverse.mp hx)

theorem lastSegment_concat (x ls : Str) (h : '/' ∉ ls) :
    lastSegment (x ++ '/' :: ls) = ls := by
  unfold lastSegment
  have hpos : ∀ a ∈ ls.reverse, (fun c => decide (c ≠ '/')) a = true := by
    intro a ha
    simp only [ne_eq, decide_eq_true_eq]
    intro he
    exact h (he ▸ List.mem_reverse.mp ha)
  rw [List.reverse_append, List.reverse_cons, List.append_assoc,
    List.singleton_append, List.takeWhile_append_of_pos hpos,
    List.takeWhile_cons_of_neg (by simp)]
  simp

/-! ## Claim C4: character-class and scheme lemmas -/

theorem lowerStr_idem (s : Str) : lowerStr (lowerStr s) = lowerStr s := by
  unfold lowerStr
  rw [List.map_map]
  apply List.map_congr_left
  intro a _
  exact char_toLower_toLower a

theorem pyIsAsciiAlpha_toLower (c : Char) (h : pyIsAsciiAlpha c = true) :
    pyIsAsciiAlpha c.toLower = true := by
  simp only [pyIsAsciiAlpha, Bool.or_eq_true, Bool.and_eq_true, decide_eq_true_eq] at *
  by_cases hu : c.toNat ≥ 65 ∧ c.toNat ≤ 90
  · have h2 := char_toLower_toNat c hu
    omega
  · rw [char_toLower_eq_self c hu]
    exact h

theorem isSchemeChar_toLower (c : Char) (h : isSchemeChar c = true) :
    isSchemeChar c.toLower = true := by
  by_cases hu : c.toNat ≥ 65 ∧ c.toNat ≤ 90
  · have h2 := char_toLower_toNat c hu
    have halpha : pyIsAsciiAlpha c.toLower = true := by
      simp only [pyIsAsciiAlpha, Bool.or_eq_true, Bool.and_eq_true, decide_eq_true_eq]
      omega
    simp [isSchemeChar, halpha]
  · rw [char_toLower_eq_self c hu]
    exact h

theorem isSchemeChar_ne_colon (c : Char) (h : isSchemeChar c = true) : c ≠ ':' := by
  intro he
  rw [he] at h
  exact absurd h (by decide)

/-- The well-formedness the parser guarantees about the scheme component:
empty, or starting with an ASCII letter, made of scheme characters only,
and already lower case. -/
def SchemeOK : Str → Prop
  | [] => True
  | c :: rest =>
    pyIsAsciiAlpha c = true ∧ (∀ x ∈ c :: rest, isSchemeChar x = true) ∧
      lowerStr (c :: rest) = c :: rest

theorem schemeSplit_ok (u : Str) : SchemeOK (schemeSplit u).1 := by
  unfold schemeSplit
  cases hs : splitFirst ':' u with
  | none => trivial
  | some p =>
    obtain ⟨pre, post⟩ := p
    cases pre with
    | nil => trivial
    | cons c0 cr =>
      by_cases hc : (pyIsAsciiAlpha c0 && (c0 :: cr).all isSchemeChar) = true
      · dsimp only
        rw [if_pos hc]
        simp only [Bool.and_eq_true, List.all_eq_true] at hc
        show SchemeOK (c0.toLower :: lowerStr cr)
        refine ⟨pyIsAsciiAlpha_toLower c0 hc.1, ?_, ?_⟩
        · intro x hx
          have hx2 : x ∈ lowerStr (c0 :: cr) := hx
          obtain ⟨y, hy1, hy2⟩ := List.mem_map.mp hx2
          rw [← hy2]
          exact isSchemeChar_toLower y (hc.2 y hy1)
        · show lowerStr (lowerStr (c0 :: cr)) = lowerStr (c0 :: cr)
          exact lowerStr_idem (c0 :: cr)
      · dsimp only
        rw [if_neg hc]
        trivial

theorem urlparse_scheme_ok (u : Str) : SchemeOK (urlparse u).scheme :=
  schemeSplit_ok u

/-! ## Claim C4: netloc, path and query component lemmas -/

theorem netlocSplit_mem (v : Str) :
    ∀ c ∈ (netlocSplit v).1, c ≠ '/' ∧ c ≠ '?' ∧ c ≠ '#' := by
  intro c hc
  unfold netlocSplit at hc
  split at hc
  · have h2 := List.mem_takeWhile_imp hc
    simp only [netPred, Bool.and_eq_true, decide_eq_true_eq] at h2
    exact ⟨h2.1.1, h2.1.2, h2.2⟩
  · exact absurd hc (by simp)

theorem urlparse_netloc_ok (u : Str) :
    ∀ c ∈ (urlparse u).netloc, c ≠ '/' ∧ c ≠ '?' ∧ c ≠ '#' :=
  netlocSplit_mem (schemeSplit u).2

theorem fragSplit_fst_no_hash (v : Str) : '#' ∉ (fragSplit v).1 := by
  unfold fragSplit
  cases hs : splitFirst '#' v with
  | none => exact splitFirst_none_not_mem '#' v hs
  | some p =>
    obtain ⟨a, b⟩ := p
    exact (splitFirst_eq_some '#' v a b hs).2

theorem fragSplit_fst_subset (v : Str) : ∀ c ∈ (fragSplit v).1, c ∈ v := by
  intro c hc
  unfold fragSplit at hc
  cases hs : splitFirst '#' v with
  | none => rw [hs] at hc; exact hc
  | some p =>
    obtain ⟨a, b⟩ := p
    rw [hs] at hc
    rw [(splitFirst_eq_some '#' v a b hs).1]
    exact List.mem_append_left _ hc

theorem fragSplit_snd_subset (v : Str) : ∀ c ∈ (fragSplit v).2, c ∈ v := by
  intro c hc
  unfold fragSplit at hc
  cases hs : splitFirst '#' v with
  | none => rw [hs] at hc; exact absurd hc (by simp)
  | some p =>
    obtain ⟨a, b⟩ := p
    rw [hs] at hc
    rw [(splitFirst_eq_some '#' v a b hs).1]
    exact List.mem_append_right _ (List.mem_cons_of_mem _ hc)

theorem querySplit_fst_no_query (v : Str) : '?' ∉ (querySplit v).1 := by
  unfold querySplit
  cases hs : splitFirst '?' v with
  | none => exact splitFirst_none_not_mem '?' v hs
  | some p =>
    obtain ⟨a, b⟩ := p
    exact (splitFirst_eq_some '?' v a b hs).2

theorem querySplit_fst_subset (v : Str) : ∀ c ∈ (querySplit v).1, c ∈ v := by
  intro c hc
  unfold querySplit at hc
  cases hs : splitFirst '?' v with
  | none => rw [hs] at hc; exact hc
  | some p =>
    obtain ⟨a, b⟩ := p
    rw [hs] at hc
    rw [(splitFirst_eq_some '?' v a b hs).1]
    exact List.mem_append_left _ hc

theorem querySplit_snd_subset (v : Str) : ∀ c ∈ (querySplit v).2, c ∈ v := by
  intro c hc
  unfold querySplit at hc
  cases hs : splitFirst '?' v with
  | none => rw [hs] at hc; exact absurd hc (by simp)
  | some p =>
    obtain ⟨a, b⟩ := p
    rw [hs] at hc
    rw [(splitFirst_eq_some '?' v a b hs).1]
    exact List.mem_append_right _ (List.mem_cons_of_mem _ hc)

theorem paramsSplit_fst_subset (p : Str) : ∀ c ∈ (paramsSplit p).1, c ∈ p := by
  intro c hc
  unfold paramsSplit at hc
  cases hs : splitLast '/' p with
  | some q =>
    obtain ⟨before, ls⟩ := q
    rw [hs] at hc
    dsimp only at hc
    cases ht : splitFirst ';' ls with
    | none =>
      rw [ht] at hc
      exact hc
    | some r =>
      obtain ⟨x, y⟩ := r
      rw [ht] at hc
      dsimp only at hc
      obtain ⟨h1, _⟩ := splitLast_eq_some '/' p before ls hs
      obtain ⟨h3, _⟩ := splitFirst_eq_some ';' ls x y ht
      rw [h1, h3]
      rcases List.mem_append.mp hc with h | h
      · exact List.mem_append_left _ h
      · rcases List.mem_cons.mp h with h2 | h2
        · exact List.mem_append_right _ (h2 ▸ List.mem_cons_self _ _)
        · exact List.mem_append_right _ (List.mem_cons_of_mem _ (List.mem_append_left _ h2))
  | none =>
    rw [hs] at hc
    dsimp only at hc
    cases ht : splitFirst ';' p with
    | none =>
      rw [ht] at hc
      exact hc
    | some r =>
      obtain ⟨x, y⟩ := r
      rw [ht] at hc
      dsimp only at hc
      obtain ⟨h3, _⟩ := splitFirst_eq_some ';' p x y ht
      rw [h3]
      exact List.mem_append_left _ hc

theorem paramsSplit_lastSeg (p : Str) : ';' ∉ lastSegment (paramsSplit p).1 := by
  unfold paramsSplit
  cases hs : splitLast '/' p with
  | none =>
    have hns : '/' ∉ p := splitLast_eq_none '/' p hs
    dsimp only
    cases ht : splitFirst ';' p with
    | none =>
      show ';' ∉ lastSegment p
      rw [lastSegment_no_slash p hns]
      exact splitFirst_none_not_mem ';' p ht
    | some r =>
      obtain ⟨x, y⟩ := r
      obtain ⟨h3, h4⟩ := splitFirst_eq_some ';' p x y ht
      have hx : '/' ∉ x := fun hm => hns (h3 ▸ List.mem_append_left _ hm)
      show ';' ∉ lastSegment x
      rw [lastSegment_no_slash x hx]
      exact h4
  | some q =>
    obtain ⟨before, ls⟩ := q
    obtain ⟨h1, h2⟩ := splitLast_eq_some '/' p before ls hs
    dsimp only
    cases ht : splitFirst ';' ls with
    | none =>
      show ';' ∉ lastSegment p
      rw [h1, lastSegment_concat before ls h2]
      exact splitFirst_none_not_mem ';' ls ht
    | some r =>
      obtain ⟨x, y⟩ := r
      obtain ⟨h3, h4⟩ := splitFirst_eq_some ';' ls x y ht
      have hx : '/' ∉ x := fun hm => h2 (h3 ▸ List.mem_append_left _ hm)
      show ';' ∉ lastSegment (before ++ '/' :: x)
      rw [lastSegment_concat before x hx]
      exact h4

theorem paramsSplit_of_no_semi (p : Str) (h : ';' ∉ lastSegment p) :
    paramsSplit p = (p, []) := by
  unfold paramsSplit
  cases hs : splitLast '/' p with
  | none =>
    have hns : '/' ∉ p := splitLast_eq_none '/' p hs
    rw [lastSegment_no_slash p hns] at h
    dsimp only
    rw [splitFirst_of_not_mem ';' p h]
  | some q =>
    obtain ⟨before, ls⟩ := q
    obtain ⟨h1, h2⟩ := splitLast_eq_some '/' p before ls hs
    rw [h1, lastSegment_concat before ls h2] at h
    dsimp only
    rw [splitFirst_of_not_mem ';' ls h]

/-! ## Claim C4: head preservation along the parsing stages -/

theorem dropWhile_cons_false {α : Type} (p : α → Bool) (l : List α) (c : α) (t : List α)
    (h : l.dropWhile p = c :: t) : p c = false := by
  induction l with
  | nil => exact absurd h (by simp)
  | cons a rest ih =>
    rw [List.dropWhile_cons] at h
    split at h
    · exact ih h
    · next hp =>
      obtain ⟨h1, _⟩ := List.cons.injEq .. ▸ h
      rw [← h1]
      exact Bool.not_eq_true _ ▸ hp

theorem dropWhile_append_of_pos {α : Type} (p : α → Bool) (l1 l2 : List α)
    (h : ∀ a ∈ l1, p a = true) : (l1 ++ l2).dropWhile p = l2.dropWhile p := by
  induction l1 with
  | nil => rfl
  | cons a t ih =>
    rw [List.cons_append, List.dropWhile_cons_of_pos (h a (List.mem_cons_self a t))]
    exact ih (fun x hx => h x (List.mem_cons_of_mem a hx))

theorem netlocSplit_cases (v : Str) :
    netlocSplit v = ([], v) ∨
    ∃ rest, v = '/' :: '/' :: rest ∧
      netlocSplit v = (rest.takeWhile netPred, rest.dropWhile netPred) := by
  unfold netlocSplit
  split
  · next rest => right; exact ⟨rest, rfl, rfl⟩
  · left; rfl

theorem fragSplit_cons_head (c : Char) (t : Str) (hc : c ≠ '#') :
    ∃ x, (fragSplit (c :: t)).1 = c :: x := by
  unfold fragSplit
  cases hs : splitFirst '#' (c :: t) with
  | none => exact ⟨t, rfl⟩
  | some p =>
    obtain ⟨a, b⟩ := p
    obtain ⟨h1, _⟩ := splitFirst_eq_some '#' (c :: t) a b hs
    cases a with
    | nil =>
      simp only [List.nil_append, List.cons.injEq] at h1
      exact absurd h1.1 hc
    | cons a0 arest =>
      simp only [List.cons_append, List.cons.injEq] at h1
      exact ⟨arest, by rw [h1.1]⟩

theorem querySplit_cons_head (c : Char) (t : Str) (hc : c ≠ '?') :
    ∃ x, (querySplit (c :: t)).1 = c :: x := by
  unfold querySplit
  cases hs : splitFirst '?' (c :: t) with
  | none => exact ⟨t, rfl⟩
  | some p =>
    obtain ⟨a, b⟩ := p
    obtain ⟨h1, _⟩ := splitFirst_eq_some '?' (c :: t) a b hs
    cases a with
    | nil =>
      simp only [List.nil_append, List.cons.injEq] at h1
      exact absurd h1.1 hc
    | cons a0 arest =>
      simp only [List.cons_append, List.cons.injEq] at h1
      exact ⟨arest, by rw [h1.1]⟩

theorem paramsSplit_fst_prefix (p : Str) : (paramsSplit p).1 <+: p := by
  unfold paramsSplit
  cases hs : splitLast '/' p with
  | none =>
    dsimp only
    cases ht : splitFirst ';' p with
    | none => exact List.prefix_refl p
    | some r =>
      obtain ⟨x, y⟩ := r
      obtain ⟨h3, _⟩ := splitFirst_eq_some ';' p x y ht
      exact ⟨';' :: y, h3.symm⟩
  | some q =>
    obtain ⟨before, ls⟩ := q
    obtain ⟨h1, _⟩ := splitLast_eq_some '/' p before ls hs
    dsimp only
    cases ht : splitFirst ';' ls with
    | none => exact List.prefix_refl p
    | some r =>
      obtain ⟨x, y⟩ := r
      obtain ⟨h3, _⟩ := splitFirst_eq_some ';' ls x y ht
      refine ⟨';' :: y, ?_⟩
      rw [h1, h3]
      simp

theorem urlparse_path_head (u : Str) (h : (urlparse u).netloc ≠ []) :
    (urlparse u).path = [] ∨ ∃ x, (urlparse u).path = '/' :: x := by
  have hne : (urlparse u).netloc = (netlocSplit (schemeSplit u).2).1 := rfl
  rcases netlocSplit_cases (schemeSplit u).2 with hcase | ⟨rest, hv, hcase⟩
  · exfalso
    apply h
    rw [hne, hcase]
  · have hP0 : (urlparse u).path =
        (paramsSplit (querySplit (fragSplit
          ((netlocSplit (schemeSplit u).2).2)).1).1).1 := rfl
    rw [hcase] at hP0
    dsimp only at hP0
    cases hd : rest.dropWhile netPred with
    | nil =>
      left
      rw [hP0, hd]
      rfl
    | cons c t =>
      rw [hd] at hP0
      have hcp : netPred c = false := dropWhile_cons_false netPred rest c t hd
      have hc3 : c = '/' ∨ c = '?' ∨ c = '#' := by
        by_cases h1 : c = '/'
        · exact Or.inl h1
        · by_cases h2 : c = '?'
          · exact Or.inr (Or.inl h2)
          · by_cases h3 : c = '#'
            · exact Or.inr (Or.inr h3)
            · exfalso
              rw [show netPred c = true from by simp [netPred, h1, h2, h3]] at hcp
              exact absurd hcp (by simp)
      rcases hc3 with hc | hc | hc
      · subst hc
        obtain ⟨x1, hx1⟩ := fragSplit_cons_head '/' t (by decide)
        rw [hx1] at hP0
        obtain ⟨x2, hx2⟩ := querySplit_cons_head '/' x1 (by decide)
        rw [hx2] at hP0
        have hpre := paramsSplit_fst_prefix ('/' :: x2)
        cases hp : (paramsSplit ('/' :: x2)).1 with
        | nil =>
          left
          rw [hP0, hp]
        | cons pc pt =>
          right
          obtain ⟨tt, htt⟩ := hpre
          rw [hp, List.cons_append] at htt
          obtain ⟨hh, _⟩ := List.cons.injEq .. ▸ htt
          refine ⟨pt, ?_⟩
          rw [hP0, hp, hh]
      · subst hc
        left
        have hq : ∃ x1, (fragSplit ('?' :: t)).1 = '?' :: x1 :=
          fragSplit_cons_head '?' t (by decide)
        obtain ⟨x1, hx1⟩ := hq
        rw [hx1] at hP0
        have hq2 : querySplit ('?' :: x1) = ([], x1) := rfl
        rw [hq2] at hP0
        rw [hP0]
        rfl
      · subst hc
        left
        have hf : fragSplit ('#' :: t) = ([], t) := rfl
        rw [hf] at hP0
        rw [hP0]
        rfl

theorem urlparse_path_no_hash (u : Str) : '#' ∉ (urlparse u).path := by
  intro hmem
  exact fragSplit_fst_no_hash _
    (querySplit_fst_subset _ _ (paramsSplit_fst_subset _ _ hmem))

theorem urlparse_path_no_query (u : Str) : '?' ∉ (urlparse u).path := by
  intro hmem
  exact querySplit_fst_no_query _ (paramsSplit_fst_subset _ _ hmem)

theorem urlparse_query_no_hash (u : Str) : '#' ∉ (urlparse u).query := by
  intro hmem
  exact fragSplit_fst_no_hash _ (querySplit_snd_subset _ _ hmem)

theorem urlparse_path_no_semi (u : Str) : ';' ∉ lastSegment (urlparse u).path :=
  paramsSplit_lastSeg _

/-! ## Claim C4: re-parsing the reconstructed URL -/

/-- Parsing the string `scheme://netloc⟨path⟩⟨?query⟩` built by
`normalize_url` recovers exactly its components, provided the components
are as the parser itself produces them: a well-formed nonempty scheme, a
netloc free of `/?#`, a path starting with `/` and free of `#`, `?` and of
`;` in its last segment, and a query free of `#`. -/
theorem urlparse_reconstruct (scheme netloc path1 query : Str)
    (hs : SchemeOK scheme) (hsne : scheme ≠ [])
    (hn : ∀ c ∈ netloc, c ≠ '/' ∧ c ≠ '?' ∧ c ≠ '#')
    (hp : ∃ x, path1 = '/' :: x)
    (hph : '#' ∉ path1) (hpq : '?' ∉ path1)
    (hpl : ';' ∉ lastSegment path1)
    (hqh : '#' ∉ query) :
    urlparse (scheme ++ ':' :: '/' :: '/' :: netloc ++ path1 ++
        (if query ≠ [] then '?' :: query else [])) =
      ⟨scheme, netloc, path1, [], query, []⟩ := by
  obtain ⟨px, hpx⟩ := hp
  obtain ⟨c0, cr, hsc⟩ : ∃ c0 cr, scheme = c0 :: cr := by
    cases scheme with
    | nil => exact absurd rfl hsne
    | cons a b => exact ⟨a, b, rfl⟩
  rw [hsc] at hs
  obtain ⟨hs1, hs2, hs3⟩ := hs
  have hcolon : ':' ∉ scheme := by
    intro hm
    exact isSchemeChar_ne_colon ':' (hs2 ':' (hsc ▸ hm)) rfl
  -- the tail after the colon
  have hr : scheme ++ ':' :: '/' :: '/' :: netloc ++ path1 ++
      (if query ≠ [] then '?' :: query else []) =
      scheme ++ ':' :: ('/' :: '/' :: (netloc ++ (path1 ++
        (if query ≠ [] then '?' :: query else [])))) := by
    simp
  rw [hr]
  have hA : schemeSplit (scheme ++ ':' :: ('/' :: '/' :: (netloc ++ (path1 ++
      (if query ≠ [] then '?' :: query else []))))) =
      (scheme, '/' :: '/' :: (netloc ++ (path1 ++
        (if query ≠ [] then '?' :: query else [])))) := by
    unfold schemeSplit
    rw [splitFirst_append ':' scheme _ hcolon]
    rw [hsc]
    dsimp only
    rw [if_pos]
    · rw [hs3]
    · rw [Bool.and_eq_true, List.all_eq_true]
      exact ⟨hs1, fun x hx => hs2 x hx⟩
  have hB : netlocSplit ('/' :: '/' :: (netloc ++ (path1 ++
      (if query ≠ [] then '?' :: query else [])))) =
      (netloc, path1 ++ (if query ≠ [] then '?' :: query else [])) := by
    have hslash : netlocSplit ('/' :: '/' :: (netloc ++ (path1 ++
        (if query ≠ [] then '?' :: query else [])))) =
        ((netloc ++ (path1 ++ (if query ≠ [] then '?' :: query else []))).takeWhile netPred,
         (netloc ++ (path1 ++ (if query ≠ [] then '?' :: query else []))).dropWhile netPred) :=
      rfl
    rw [hslash]
    have hnp : ∀ a ∈ netloc, netPred a = true := by
      intro a ha
      have h3 := hn a ha
      simp [netPred, h3.1, h3.2.1, h3.2.2]
    have ht : (netloc ++ (path1 ++ (if query ≠ [] then '?' :: query else []))).takeWhile
        netPred = netloc := by
      rw [List.takeWhile_append_of_pos hnp, hpx, List.cons_append,
        List.takeWhile_cons_of_neg (by simp [netPred])]
      simp
    have hd : (netloc ++ (path1 ++ (if query ≠ [] then '?' :: query else []))).dropWhile
        netPred = path1 ++ (if query ≠ [] then '?' :: query else []) := by
      rw [dropWhile_append_of_pos netPred _ _ hnp, hpx, List.cons_append,
        List.dropWhile_cons_of_neg (by simp [netPred])]
    rw [ht, hd]
  have hqmem : '#' ∉ path1 ++ (if query ≠ [] then '?' :: query else []) := by
    intro hm
    rcases List.mem_append.mp hm with hm | hm
    · exact hph hm
    · split at hm
      · rcases List.mem_cons.mp hm with hm | hm
        · exact absurd hm.symm (by decide)
        · exact hqh hm
      · exact absurd hm (by simp)
  have hC : fragSplit (path1 ++ (if query ≠ [] then '?' :: query else [])) =
      (path1 ++ (if query ≠ [] then '?' :: query else []), []) := by
    unfold fragSplit
    rw [splitFirst_of_not_mem '#' _ hqmem]
  have hD : querySplit (path1 ++ (if query ≠ [] then '?' :: query else [])) =
      (path1, query) := by
    unfold querySplit
    by_cases hq : query ≠ []
    · rw [if_pos hq, splitFirst_append '?' path1 query hpq]
    · rw [if_neg hq]
      rw [List.append_nil, splitFirst_of_not_mem '?' path1 hpq]
      simp only [Decidable.not_not] at hq
      rw [hq]
  have hE : paramsSplit path1 = (path1, []) := paramsSplit_of_no_semi path1 hpl
  unfold urlparse
  rw [hA]
  dsimp only
  rw [hB]
  dsimp only
  rw [hC]
  dsimp only
  rw [hD]
  dsimp only
  rw [hE]

/-- The string `normalize_url` builds, written in the grouping that
`urlparse_reconstruct` takes apart. -/
theorem normalize_shape (v : Str) : normalize_url v =
    (urlparse v).scheme ++ ':' :: '/' :: '/' :: (urlparse v).netloc ++
      (if (urlparse v).path = [] then ['/']
       else if ¬ endsWithChar '/' (urlparse v).path ∧ '.' ∉ lastSegment (urlparse v).path
       then (urlparse v).path ++ ['/'] else (urlparse v).path) ++
      (if (urlparse v).query ≠ [] then '?' :: (urlparse v).query else []) := by
  unfold normalize_url
  by_cases hq : (urlparse v).query ≠ [] <;> simp [hq, List.append_assoc]

theorem claim4_counterexample :
    normalize_url "foo".toList = "://foo/".toList ∧
    normalize_url "://foo/".toList = "://://foo/".toList ∧
    normalize_url (normalize_url "foo".toList) ≠ normalize_url "foo".toList := by
  refine ⟨by decide, by decide, by decide⟩

/-- Claim C4, amended: `normalize_url` is idempotent on every URL whose
parse has a nonempty scheme and a nonempty authority — in particular on
every `http(s)://host...` URL. The transform strips the fragment, turns an
empty path into `/`, appends `/` when the last segment has no dot, and
keeps the query, as the claim states. Unrestricted idempotence fails: a
scheme-less input such as `foo` re-assembles to `://foo/`, which re-parses
with the `:` inside the path, and a third normalization differs. -/
theorem claim4_normalize_idem (u : Str)
    (hsch : (urlparse u).scheme ≠ [])
    (hnet : (urlparse u).netloc ≠ []) :
    normalize_url (normalize_url u) = normalize_url u := by
  set path1 := (if (urlparse u).path = [] then ['/']
    else if ¬ endsWithChar '/' (urlparse u).path ∧ '.' ∉ lastSegment (urlparse u).path
    then (urlparse u).path ++ ['/'] else (urlparse u).path) with hpath1
  have hnu : normalize_url u = (urlparse u).scheme ++ ':' :: '/' :: '/' ::
      (urlparse u).netloc ++ path1 ++
      (if (urlparse u).query ≠ [] then '?' :: (urlparse u).query else []) := by
    rw [normalize_shape u, ← hpath1]
  have hhead : ∃ x, path1 = '/' :: x := by
    rcases urlparse_path_head u hnet with h0 | ⟨x, hx⟩
    · rw [hpath1, if_pos h0]
      exact ⟨[], rfl⟩
    · rw [hpath1, if_neg (by rw [hx]; simp)]
      by_cases hc : ¬ endsWithChar '/' (urlparse u).path ∧
          '.' ∉ lastSegment (urlparse u).path
      · rw [if_pos hc, hx]
        exact ⟨x ++ ['/'], rfl⟩
      · rw [if_neg hc, hx]
        exact ⟨x, rfl⟩
  have hsub : ∀ c, c ∈ path1 → c = '/' ∨ c ∈ (urlparse u).path := by
    intro c hc
    rw [hpath1] at hc
    by_cases h0 : (urlparse u).path = []
    · rw [if_pos h0] at hc
      simp only [List.mem_singleton] at hc
      exact Or.inl hc
    · rw [if_neg h0] at hc
      by_cases hcnd : ¬ endsWithChar '/' (urlparse u).path ∧
          '.' ∉ lastSegment (urlparse u).path
      · rw [if_pos hcnd] at hc
        rcases List.mem_append.mp hc with h | h
        · exact Or.inr h
        · simp only [List.mem_singleton] at h
          exact Or.inl h
      · rw [if_neg hcnd] at hc
        exact Or.inr hc
  have hph : '#' ∉ path1 := by
    intro hm
    rcases hsub '#' hm with h | h
    · exact absurd h (by decide)
    · exact urlparse_path_no_hash u h
  have hpq : '?' ∉ path1 := by
    intro hm
    rcases hsub '?' hm with h | h
    · exact absurd h (by decide)
    · exact urlparse_path_no_query u h
  have hpl : ';' ∉ lastSegment path1 := by
    rw [hpath1]
    by_cases h0 : (urlparse u).path = []
    · rw [if_pos h0]
      decide
    · rw [if_neg h0]
      by_cases hcnd : ¬ endsWithChar '/' (urlparse u).path ∧
          '.' ∉ lastSegment (urlparse u).path
      · rw [if_pos hcnd]
        have hcc := lastSegment_concat (urlparse u).path [] (by simp)
        rw [show (urlparse u).path ++ ['/'] =
          (urlparse u).path ++ '/' :: [] from rfl, hcc]
        simp
      · rw [if_neg hcnd]
        exact urlparse_path_no_semi u
  have hends : endsWithChar '/' path1 = true ∨ '.' ∈ lastSegment path1 := by
    rw [hpath1]
    by_cases h0 : (urlparse u).path = []
    · rw [if_pos h0]
      left
      decide
    · rw [if_neg h0]
      by_cases hcnd : ¬ endsWithChar '/' (urlparse u).path ∧
          '.' ∉ lastSegment (urlparse u).path
      · rw [if_pos hcnd]
        left
        simp [endsWithChar, List.getLast?_concat]
      · rw [if_neg hcnd]
        by_cases he : endsWithChar '/' (urlparse u).path = true
        · exact Or.inl he
        · right
          by_contra hd
          exact hcnd ⟨he, hd⟩
  have hfix : (if path1 = [] then ['/']
      else if ¬ endsWithChar '/' path1 ∧ '.' ∉ lastSegment path1
      then path1 ++ ['/'] else path1) = path1 := by
    obtain ⟨x, hx⟩ := hhead
    rw [if_neg (by rw [hx]; simp)]
    have hcond : ¬(¬ endsWithChar '/' path1 ∧ '.' ∉ lastSegment path1) := by
      rintro ⟨h1, h2⟩
      rcases hends with he | he
      · exact h1 he
      · exact h2 he
    rw [if_neg hcond]
  have hparse : urlparse (normalize_url u) =
      ⟨(urlparse u).scheme, (urlparse u).netloc, path1, [],
        (urlparse u).query, []⟩ := by
    rw [hnu]
    exact urlparse_reconstruct _ _ _ _ (urlparse_scheme_ok u) hsch
      (urlparse_netloc_ok u) hhead hph hpq hpl (urlparse_query_no_hash u)
  rw [normalize_shape (normalize_url u), hparse]
  dsimp only
  rw [hfix, ← hnu]

theorem claim4_witness :
    (urlparse "https://example.com/docs".toList).scheme ≠ [] ∧
    (urlparse "https://example.com/docs".toList).netloc ≠ [] ∧
    normalize_url (normalize_url "https://example.com/docs".toList) =
      normalize_url "https://example.com/docs".toList :=
  ⟨by decide, by decide,
    claim4_normalize_idem "https://example.com/docs".toList
      (by decide) (by decide)⟩
